import Mathlib

/-!
Verification of the funnel hash table implementation
(`funnel_hash/_funnel_hash.pyx`).

The table is shallowly embedded.  Keys and values are natural numbers,
Python's builtin `hash` is an arbitrary function `h : Nat → Nat` passed
to every operation, and the per-level and special salts are stored in
the table exactly as in the source.  Machine integers are modelled as
`Nat`/`Int`; the 31-bit mask of `_hash` is written out explicitly.
Entries default to `key = 0, value = 0, occupied := false`, mirroring
`_Entry()` whose `None` fields are never read while `occupied` is
false.  Out-of-range list reads return the default entry and
out-of-range writes are no-ops; the well-formedness predicate `WF`
below (satisfied by every constructed table) guarantees that every
index the operations compute is in range, so on well-formed tables the
embedding coincides with the source semantics.
-/

/-- An entry of the hash table (`_Entry` in the source).  `occupied = false`
marks a logically absent slot regardless of the stale key/value content. -/
structure Entry where
  key : Nat
  value : Nat
  occupied : Bool
deriving DecidableEq, Repr

/-- `_Entry()` — the default, unoccupied entry. -/
def Entry.empty : Entry := ⟨0, 0, false⟩

/-- The funnel hash table state (`FunnelHashTable` in the source).
`probe_limit` is the value `max(1, ceil(log(log(capacity + 1) + 1)))` that
the source recomputes from `capacity` in every insert/get/delete call; it
is a pure function of `capacity` and is stored once here (the real-valued
formula is related to this field in the construction section below). -/
structure FunnelHashTable where
  capacity : Nat
  max_inserts : Nat
  beta : Nat
  probe_limit : Nat
  level_bucket_counts : List Nat
  level_salts : List Nat
  levels : List (List Entry)
  special_array : List Entry
  special_salt : Nat
  num_inserts : Int
  special_occupancy : Int
deriving DecidableEq, Repr

/-- `FunnelHashTable._hash`: `(hash(key) ^ salt) & 0x7FFFFFFF`. -/
def fhash (h : Nat → Nat) (key salt : Nat) : Nat :=
  (h key ^^^ salt) &&& 0x7FFFFFFF

/-- Read an entry of a slot list (in-range on well-formed tables). -/
def getEnt (l : List Entry) (i : Nat) : Entry := l.getD i Entry.empty

/-- The slot condition of the insert scan:
`not entry.occupied or entry.key == key`. -/
def insP (k : Nat) (e : Entry) : Bool := !e.occupied || e.key == k

/-- The slot condition of the get/delete scans:
`entry.occupied and entry.key == key`. -/
def matchP (k : Nat) (e : Entry) : Bool := e.occupied && e.key == k

/-- Linear scan of the `beta` slots of one bucket (`for idx in range(start,
end)`), returning the first index whose entry satisfies `p`. -/
def scanBucket (p : Entry → Bool) (l : List Entry) : Nat → Nat → Option Nat
  | _, 0 => none
  | idx, m + 1 => if p (getEnt l idx) then some idx else scanBucket p l (idx + 1) m

/-- Bounded linear probe of the special array
(`for j in range(probe_limit): idx = (hash_special(key) + j) % size`),
returning the first probed index whose entry satisfies `p`. -/
def probeSpec (p : Entry → Bool) (arr : List Entry) (base : Nat) : Nat → Nat → Option Nat
  | _, 0 => none
  | j, m + 1 =>
    if p (getEnt arr ((base + j) % arr.length)) then some ((base + j) % arr.length)
    else probeSpec p arr base (j + 1) m

/-- The level traversal of `get`: per level, scan the designated bucket for
an occupied slot with an equal key and return its value. -/
def getLevels (h : Nat → Nat) (beta k : Nat) :
    List (List Entry) → List Nat → List Nat → Option Nat
  | level :: ls, count :: cs, salt :: ss =>
    match scanBucket (matchP k) level (fhash h k salt % count * beta) beta with
    | some idx => some (getEnt level idx).value
    | none => getLevels h beta k ls cs ss
  | _, _, _ => none

/-- The level traversal of `insert`: per level, scan the designated bucket
for a slot that is unoccupied or holds the key, and overwrite it. -/
def insertLevels (h : Nat → Nat) (beta k v : Nat) :
    List (List Entry) → List Nat → List Nat → Option (List (List Entry))
  | level :: ls, count :: cs, salt :: ss =>
    match scanBucket (insP k) level (fhash h k salt % count * beta) beta with
    | some idx => some (level.set idx ⟨k, v, true⟩ :: ls)
    | none => (insertLevels h beta k v ls cs ss).map (level :: ·)
  | _, _, _ => none

/-- The level traversal of `__delitem__`: per level, scan the designated
bucket for an occupied slot with an equal key and reset it. -/
def delLevels (h : Nat → Nat) (beta k : Nat) :
    List (List Entry) → List Nat → List Nat → Option (List (List Entry))
  | level :: ls, count :: cs, salt :: ss =>
    match scanBucket (matchP k) level (fhash h k salt % count * beta) beta with
    | some idx => some (level.set idx Entry.empty :: ls)
    | none => (delLevels h beta k ls cs ss).map (level :: ·)
  | _, _, _ => none

/-- The two failure modes of `insert` (both `RuntimeError` in the source). -/
inductive InsertError where
  | full
  | specialFull
deriving DecidableEq, Repr

/-- `FunnelHashTable.insert`. -/
def FunnelHashTable.insert (t : FunnelHashTable) (h : Nat → Nat) (k v : Nat) :
    Except InsertError FunnelHashTable :=
  if (t.max_inserts : Int) ≤ t.num_inserts then .error .full
  else
    match insertLevels h t.beta k v t.levels t.level_bucket_counts t.level_salts with
    | some ls => .ok { t with levels := ls, num_inserts := t.num_inserts + 1 }
    | none =>
      match probeSpec (insP k) t.special_array (fhash h k t.special_salt) 0 t.probe_limit with
      | some idx =>
        .ok { t with special_array := t.special_array.set idx ⟨k, v, true⟩,
                     special_occupancy := t.special_occupancy + 1,
                     num_inserts := t.num_inserts + 1 }
      | none => .error .specialFull

/-- `FunnelHashTable.get` without a default: `some v` is a found value,
`none` is the `KeyError` outcome. -/
def FunnelHashTable.get? (t : FunnelHashTable) (h : Nat → Nat) (k : Nat) : Option Nat :=
  match getLevels h t.beta k t.levels t.level_bucket_counts t.level_salts with
  | some v => some v
  | none =>
    match probeSpec (matchP k) t.special_array (fhash h k t.special_salt) 0 t.probe_limit with
    | some idx => some (getEnt t.special_array idx).value
    | none => none

/-- `FunnelHashTable.get` with a default value supplied. -/
def FunnelHashTable.getD (t : FunnelHashTable) (h : Nat → Nat) (k d : Nat) : Nat :=
  (t.get? h k).getD d

/-- `__contains__` (membership probes via `get` and catches `KeyError`). -/
def FunnelHashTable.contains (t : FunnelHashTable) (h : Nat → Nat) (k : Nat) : Bool :=
  (t.get? h k).isSome

/-- `__delitem__`: `some t'` on success, `none` is the `KeyError` outcome. -/
def FunnelHashTable.delitem (t : FunnelHashTable) (h : Nat → Nat) (k : Nat) :
    Option FunnelHashTable :=
  match delLevels h t.beta k t.levels t.level_bucket_counts t.level_salts with
  | some ls => some { t with levels := ls, num_inserts := t.num_inserts - 1 }
  | none =>
    match probeSpec (matchP k) t.special_array (fhash h k t.special_salt) 0 t.probe_limit with
    | some idx =>
      some { t with special_array := t.special_array.set idx Entry.empty,
                    special_occupancy := t.special_occupancy - 1,
                    num_inserts := t.num_inserts - 1 }
    | none => none

/-- `pop` without a default: get, then delete; `none` is the `KeyError`
outcome (in which case the source leaves the table unchanged). -/
def FunnelHashTable.pop (t : FunnelHashTable) (h : Nat → Nat) (k : Nat) :
    Option (Nat × FunnelHashTable) :=
  match t.get? h k with
  | none => none
  | some v =>
    match t.delitem h k with
    | some t' => some (v, t')
    | none => none

/-- The guard of `items()`: an occupied entry yields its key-value pair. -/
def occPair (e : Entry) : Option (Nat × Nat) :=
  if e.occupied then some (e.key, e.value) else none

/-- `items()`: every level's slots in level order and slot order, then the
special array in slot order. -/
def FunnelHashTable.items (t : FunnelHashTable) : List (Nat × Nat) :=
  (t.levels.map fun level => level.filterMap occPair).flatten
    ++ t.special_array.filterMap occPair

/-- `keys()`. -/
def FunnelHashTable.keys (t : FunnelHashTable) : List Nat :=
  t.items.map Prod.fst

/-- The loop body of `clear()`: delete the listed keys one at a time.  A
`KeyError` would propagate out of `clear`, leaving the state produced by
the previous iterations. -/
def deleteList (h : Nat → Nat) : List Nat → FunnelHashTable → FunnelHashTable
  | [], t => t
  | k :: ks, t =>
    match t.delitem h k with
    | some t' => deleteList h ks t'
    | none => t

/-- `clear()`: `keys = list(self.keys()); for key in keys: del self[key]`. -/
def FunnelHashTable.clear (t : FunnelHashTable) (h : Nat → Nat) : FunnelHashTable :=
  deleteList h t.keys t

/-- The state after an `insert` call under Python exception semantics: a
raising insert leaves the table unchanged. -/
def FunnelHashTable.insertR (t : FunnelHashTable) (h : Nat → Nat) (k v : Nat) :
    FunnelHashTable :=
  match t.insert h k v with
  | .ok t' => t'
  | .error _ => t

/-- `__len__` (the reported length is the raw `num_inserts` counter). -/
def FunnelHashTable.len (t : FunnelHashTable) : Int := t.num_inserts

/-- Structural well-formedness of the level lists: the three parallel lists
have equal length, every bucket count is positive and every level holds
`bucket_count * beta` slots — exactly what `__init__` establishes. -/
def levelsWF (beta : Nat) : List (List Entry) → List Nat → List Nat → Bool
  | [], [], [] => true
  | level :: ls, count :: cs, _ :: ss =>
    decide (1 ≤ count) && decide (level.length = count * beta) && levelsWF beta ls cs ss
  | _, _, _ => false

/-- Structural well-formedness of a table state.  Every table produced by
`__init__` satisfies this, and every operation preserves it. -/
def FunnelHashTable.WF (t : FunnelHashTable) : Bool :=
  decide (1 ≤ t.beta) && decide (1 ≤ t.probe_limit) &&
    decide (1 ≤ t.special_array.length) &&
    levelsWF t.beta t.levels t.level_bucket_counts t.level_salts

/-- A fresh table: all slots unoccupied and both counters zero, as after
construction with no initial data. -/
def FunnelHashTable.Fresh (t : FunnelHashTable) : Bool :=
  t.levels.all (fun l => l.all (fun e => !e.occupied)) &&
    t.special_array.all (fun e => !e.occupied) &&
    (t.num_inserts == 0) && (t.special_occupancy == 0)

/-- The table-level operations (the mapping protocol of the source). -/
inductive Op where
  | ins (k v : Nat)
  | del (k : Nat)
  | popOp (k : Nat)
  | clearOp
deriving DecidableEq, Repr

/-- The state after one operation, under Python exception semantics (a
raising operation leaves the state of the completed work so far). -/
def applyOp (h : Nat → Nat) (t : FunnelHashTable) : Op → FunnelHashTable
  | .ins k v => t.insertR h k v
  | .del k =>
    match t.delitem h k with
    | some t' => t'
    | none => t
  | .popOp k =>
    match t.pop h k with
    | some p => p.2
    | none => t
  | .clearOp => t.clear h

/-- The state after a sequence of operations. -/
def applyOps (h : Nat → Nat) : FunnelHashTable → List Op → FunnelHashTable
  | t, [] => t
  | t, op :: ops => applyOps h (applyOp h t op) ops

/-- Whether an operation can affect the binding of key `k`: an
insert/delete/pop of `k` itself, or `clear` (which deletes every key). -/
def touches (k : Nat) : Op → Bool
  | .ins k' _ => k' == k
  | .del k' => k' == k
  | .popOp k' => k' == k
  | .clearOp => true

/-- The identity hash function: Python's builtin `hash` is the identity on
small non-negative integers, the keys used in the concrete states below. -/
def hid : Nat → Nat := fun k => k

/-- The table `FunnelHashTable(5, delta=0.75)` produces when every drawn
salt is 0: `beta = 1`, `alpha = 12`, `special_size = 2`, `max_inserts = 2`,
`probe_limit = 2`, level bucket counts `[1, 1, 1]` (the construction
section below relates these values to the real-valued parameter
derivation of `__init__`). -/
def t0c : FunnelHashTable :=
  { capacity := 5, max_inserts := 2, beta := 1, probe_limit := 2,
    level_bucket_counts := [1, 1, 1], level_salts := [0, 0, 0],
    levels := [[Entry.empty], [Entry.empty], [Entry.empty]],
    special_array := [Entry.empty, Entry.empty], special_salt := 0,
    num_inserts := 0, special_occupancy := 0 }

/-- The slot-list relation used by the framing lemmas: `l'` agrees with `l`
on which positions match key `k`, and entries agree at matching positions. -/
def frameR (k : Nat) (l l' : List Entry) : Prop :=
  (∀ i, matchP k (getEnt l' i) = matchP k (getEnt l i)) ∧
    (∀ i, matchP k (getEnt l i) = true → getEnt l' i = getEnt l i)

/-- Bulk insertion of a list of pairs (the `for key, value in data:
self.insert(key, value)` loop of `__init__`), `none` as soon as one
insert raises. -/
def insertList (h : Nat → Nat) : List (Nat × Nat) → FunnelHashTable → Option FunnelHashTable
  | [], t => some t
  | (k, v) :: ps, t =>
    match t.insert h k v with
    | .ok t' => insertList h ps t'
    | .error _ => none

/-- The number of occupied slots holding key `k` (`keys()` lists the key of
every occupied slot once). -/
def countKey (t : FunnelHashTable) (k : Nat) : Nat := t.keys.count k

/-- The number of distinct occupied slots (`items()` yields one pair per
occupied slot). -/
def occupiedCount (t : FunnelHashTable) : Nat := t.items.length

/-- The state of `t0c` after `insert(0, 10)` (key 0 lands in level 1). -/
def t1c : FunnelHashTable := t0c.insertR hid 0 10

/-- The state of `t1c` after the overwriting `insert(0, 20)`. -/
def t2c : FunnelHashTable := t1c.insertR hid 0 20

/-- `t0c` after `insert(1, 10)`, `insert(0, 20)`, `delete(1)`: key 1 filled
the single level-1 slot, so key 0 went to level 2; the delete then freed
the level-1 slot again. -/
def t3c : FunnelHashTable := applyOps hid t0c [Op.ins 1 10, Op.ins 0 20, Op.del 1]

/-- `t3c` after re-inserting key 0: the insert scan finds the freed level-1
slot first, so key 0 now occupies a slot in level 1 *and* in level 2. -/
def t4c : FunnelHashTable := t3c.insertR hid 0 30

/-- `t4c` after `delete(0)`: the level-1 copy is removed, the stale level-2
copy of key 0 remains visible. -/
def t5c : FunnelHashTable := (t4c.delitem hid 0).getD t4c

/-- `t1c` after `delete(0)` (the single copy of key 0 is removed). -/
def t1cDel : FunnelHashTable := (t1c.delitem hid 0).getD t1c

/-- Coherence of one level: every occupied slot lies inside the bucket that
its own key hashes to in this level.  Every slot ever written by `insert`
satisfies this, because `insert` only writes inside the designated bucket. -/
def levelCoherent (h : Nat → Nat) (beta count salt : Nat) (level : List Entry) : Bool :=
  (List.range level.length).all fun idx =>
    !(getEnt level idx).occupied ||
      (decide (fhash h (getEnt level idx).key salt % count * beta ≤ idx) &&
        decide (idx < fhash h (getEnt level idx).key salt % count * beta + beta))

/-- Coherence of all levels. -/
def levelsCoherent (h : Nat → Nat) (beta : Nat) :
    List (List Entry) → List Nat → List Nat → Bool
  | level :: ls, count :: cs, salt :: ss =>
    levelCoherent h beta count salt level && levelsCoherent h beta ls cs ss
  | _, _, _ => true

/-- Coherence of the special array: every occupied slot lies on the bounded
probe sequence of its own key. -/
def specialCoherent (h : Nat → Nat) (probe ssalt : Nat) (arr : List Entry) : Bool :=
  (List.range arr.length).all fun idx =>
    !(getEnt arr idx).occupied ||
      (List.range probe).any fun j =>
        decide (idx = (fhash h (getEnt arr idx).key ssalt + j) % arr.length)

/-- Coherence of a table state for hash function `h`: every occupied slot is
on the probe path of the key it holds.  It holds for the fresh table and is
preserved by every operation; `get`/`delete` find a key exactly when it
occupies some slot only on coherent states. -/
def FunnelHashTable.Coherent (t : FunnelHashTable) (h : Nat → Nat) : Bool :=
  levelsCoherent h t.beta t.levels t.level_bucket_counts t.level_salts &&
    specialCoherent h t.probe_limit t.special_salt t.special_array

/-- `beta = int(ceil(2 * log2(1 / delta)))`, over the reals (the C `double`
computation is the floating-point image of this formula). -/
noncomputable def betaD (delta : ℝ) : ℤ := ⌈2 * Real.logb 2 (1 / delta)⌉

/-- `alpha = int(ceil(4 * log2(1 / delta) + 10))`. -/
noncomputable def alphaD (delta : ℝ) : ℤ := ⌈4 * Real.logb 2 (1 / delta) + 10⌉

/-- `max_inserts = capacity - int(delta * capacity)`; Python `int` of a
non-negative float truncates, i.e. takes the floor. -/
noncomputable def maxInsertsD (capacity : ℕ) (delta : ℝ) : ℤ :=
  capacity - ⌊delta * capacity⌋

/-- `special_size = max(1, int(3 * delta * capacity / 4))`. -/
noncomputable def specialSizeD (capacity : ℕ) (delta : ℝ) : ℕ :=
  max 1 (⌊3 * delta * capacity / 4⌋).toNat

/-- `primary_size = capacity - special_size`. -/
noncomputable def primarySizeD (capacity : ℕ) (delta : ℝ) : ℕ :=
  capacity - specialSizeD capacity delta

/-- `total_buckets = primary_size // beta` (C integer division). -/
noncomputable def totalBucketsD (capacity : ℕ) (delta : ℝ) : ℕ :=
  primarySizeD capacity delta / (betaD delta).toNat

/-- `a1 = total_buckets / (4 * (1 - 0.75 ** alpha)) if alpha > 0 else
total_buckets`. -/
noncomputable def a1D (capacity : ℕ) (delta : ℝ) : ℝ :=
  if 0 < alphaD delta then
    (totalBucketsD capacity delta : ℝ) / (4 * (1 - (0.75 : ℝ) ^ (alphaD delta).toNat))
  else (totalBucketsD capacity delta : ℝ)

/-- The level-construction loop of `__init__`: at level `i` with `fuel`
iterations left (`alpha` at the start) and `remaining` unallocated buckets,
compute `a_i = max(1, int(round(a1 * 0.75 ** i)))` (always at least 1, so
the `a_i <= 0` break never fires), stop when no buckets remain, clamp `a_i`
to the remaining budget, and recurse with the budget reduced. -/
noncomputable def levelLoop (a1 : ℝ) : Nat → Nat → Nat → List Nat
  | _, 0, _ => []
  | i, fuel + 1, remaining =>
    if remaining = 0 then []
    else
      min (max 1 (round (a1 * (0.75 : ℝ) ^ i)).toNat) remaining
        :: levelLoop a1 (i + 1) fuel
          (remaining - min (max 1 (round (a1 * (0.75 : ℝ) ^ i)).toNat) remaining)

/-- The bucket counts of the levels created by `__init__`. -/
noncomputable def levelCountsD (capacity : ℕ) (delta : ℝ) : List ℕ :=
  levelLoop (a1D capacity delta) 0 (alphaD delta).toNat (totalBucketsD capacity delta)

/-- `probe_limit = max(1, int(ceil(log(log(capacity + 1) + 1))))` (natural
logarithms, as `libc` `log`). -/
noncomputable def probeLimitD (capacity : ℕ) : ℕ :=
  max 1 (⌈Real.log (Real.log (capacity + 1) + 1)⌉).toNat

/-- The table `__init__` builds from `capacity`, `delta` and the externally
drawn salts (`salts i` is the salt of level `i`, `ssalt` the special salt),
before any initial data is inserted. -/
noncomputable def constructedTable (capacity : ℕ) (delta : ℝ)
    (salts : ℕ → ℕ) (ssalt : ℕ) : FunnelHashTable :=
  { capacity := capacity
    max_inserts := (maxInsertsD capacity delta).toNat
    beta := (betaD delta).toNat
    probe_limit := probeLimitD capacity
    level_bucket_counts := levelCountsD capacity delta
    level_salts := (List.range (levelCountsD capacity delta).length).map salts
    levels := (levelCountsD capacity delta).map
      (fun a => List.replicate (a * (betaD delta).toNat) Entry.empty)
    special_array := List.replicate (specialSizeD capacity delta) Entry.empty
    special_salt := ssalt
    num_inserts := 0
    special_occupancy := 0 }

/-- A physical slot of the table: a position in some level or in the
special array (`readSlot` of an out-of-range slot is the absent entry). -/
inductive Slot where
  | level (i idx : Nat)
  | special (idx : Nat)
deriving DecidableEq, Repr

/-- Read the entry a slot holds. -/
def readSlot (t : FunnelHashTable) : Slot → Entry
  | .level i idx => getEnt (t.levels.getD i []) idx
  | .special idx => getEnt t.special_array idx

/-- Key `k` matches no slot of the designated bucket of any of these
levels. -/
def noKeyLevels (h : Nat → Nat) (beta k : Nat) :
    List (List Entry) → List Nat → List Nat → Prop
  | level :: ls, count :: cs, salt :: ss =>
    (∀ j, j < beta →
        matchP k (getEnt level (fhash h k salt % count * beta + j)) = false)
      ∧ noKeyLevels h beta k ls cs ss
  | _, _, _ => True

/-- Key `k` matches no slot of its probe window of the special array. -/
def noKeySpecial (h : Nat → Nat) (probe ssalt k : Nat) (arr : List Entry) : Prop :=
  ∀ i, i < probe →
    matchP k (getEnt arr ((fhash h k ssalt + i) % arr.length)) = false

/-- Tidiness of the level store for key `k` (an invariant of insert-only
histories): whenever the insert scan of a level would stop at slot `idx`,
every `k`-match of that designated bucket sits at `idx` itself, and `k`
matches nothing in any deeper level's designated bucket nor on its special
probe window.  In particular a re-insert of a present key overwrites its
unique slot in place. -/
def tidyLevels (h : Nat → Nat) (beta probe ssalt k : Nat) (arr : List Entry) :
    List (List Entry) → List Nat → List Nat → Prop
  | level :: ls, count :: cs, salt :: ss =>
    (∀ idx, scanBucket (insP k) level (fhash h k salt % count * beta) beta = some idx →
        (∀ j, j < beta →
            matchP k (getEnt level (fhash h k salt % count * beta + j)) = true →
            fhash h k salt % count * beta + j = idx) ∧
          noKeyLevels h beta k ls cs ss ∧ noKeySpecial h probe ssalt k arr)
      ∧ tidyLevels h beta probe ssalt k arr ls cs ss
  | _, _, _ => True

/-- Tidiness of the special array for key `k`: whenever the bounded insert
probe would stop at position `r`, every `k`-match on `k`'s probe window sits
at position `r` itself. -/
def tidySpecial (h : Nat → Nat) (probe ssalt k : Nat) (arr : List Entry) : Prop :=
  ∀ r, probeSpec (insP k) arr (fhash h k ssalt) 0 probe = some r →
    ∀ i, i < probe →
      matchP k (getEnt arr ((fhash h k ssalt + i) % arr.length)) = true →
      (fhash h k ssalt + i) % arr.length = r

/-- The full tidiness invariant of insert-only states. -/
def FunnelHashTable.Tidy (t : FunnelHashTable) (h : Nat → Nat) : Prop :=
  ∀ k, tidyLevels h t.beta t.probe_limit t.special_salt k t.special_array
      t.levels t.level_bucket_counts t.level_salts
    ∧ tidySpecial h t.probe_limit t.special_salt k t.special_array

/-- Whether an operation is an insert (the only operation the amended C2
invariant allows). -/
def isIns : Op → Bool
  | .ins _ _ => true
  | _ => false

-- ### DEFINITIONS ABOVE THIS LINE, THEOREMS BELOW ### --

theorem matchP_empty (k : Nat) : matchP k Entry.empty = false := rfl

theorem insP_of_matchP {k : Nat} {e : Entry} (h : matchP k e = true) : insP k e = true := by
  unfold matchP at h
  unfold insP
  simp only [Bool.and_eq_true] at h
  simp [h.2]

theorem matchP_false_of_insP_false {k : Nat} {e : Entry} (h : insP k e = false) :
    matchP k e = false := by
  by_contra hm
  rw [insP_of_matchP (Bool.of_not_eq_false hm)] at h
  cases h

theorem insP_false_iff {k : Nat} {e : Entry} :
    insP k e = false ↔ e.occupied = true ∧ e.key ≠ k := by
  unfold insP
  simp

theorem matchP_true_iff {k : Nat} {e : Entry} :
    matchP k e = true ↔ e.occupied = true ∧ e.key = k := by
  unfold matchP
  simp

theorem getEnt_of_le {l : List Entry} {i : Nat} (h : l.length ≤ i) :
    getEnt l i = Entry.empty := by
  unfold getEnt
  rw [List.getD_eq_getElem?_getD, List.getElem?_eq_none h]
  rfl

theorem getEnt_of_lt {l : List Entry} {i : Nat} (h : i < l.length) :
    getEnt l i = l[i] := by
  unfold getEnt
  rw [List.getD_eq_getElem?_getD, List.getElem?_eq_getElem h]
  rfl

theorem matchP_getEnt_lt {k : Nat} {l : List Entry} {i : Nat}
    (h : matchP k (getEnt l i) = true) : i < l.length := by
  by_contra hi
  rw [getEnt_of_le (Nat.le_of_not_lt hi)] at h
  cases h

theorem getEnt_set_self {l : List Entry} {i : Nat} (e : Entry) (h : i < l.length) :
    getEnt (l.set i e) i = e := by
  unfold getEnt
  rw [List.getD_eq_getElem?_getD, List.getElem?_set_self h]
  rfl

theorem getEnt_set_ne {l : List Entry} {i j : Nat} (e : Entry) (h : j ≠ i) :
    getEnt (l.set i e) j = getEnt l j := by
  unfold getEnt
  rw [List.getD_eq_getElem?_getD, List.getD_eq_getElem?_getD,
    List.getElem?_set_ne (Ne.symm h)]

theorem scanBucket_none_iff {p : Entry → Bool} {l : List Entry} :
    ∀ {m idx}, scanBucket p l idx m = none ↔ ∀ j, j < m → p (getEnt l (idx + j)) = false := by
  intro m
  induction m with
  | zero =>
    intro idx
    simp [scanBucket]
  | succ n ih =>
    intro idx
    rw [scanBucket]
    by_cases hp : p (getEnt l idx) = true
    · simp only [hp, if_true]
      constructor
      · intro hc; cases hc
      · intro hall
        have h0 := hall 0 (Nat.succ_pos n)
        rw [Nat.add_zero, hp] at h0
        cases h0
    · simp only [Bool.not_eq_true] at hp
      simp only [hp, Bool.false_eq_true, if_false]
      rw [ih]
      constructor
      · intro hall j hj
        cases j with
        | zero => simpa using hp
        | succ j' =>
          have e : idx + (j' + 1) = (idx + 1) + j' := by omega
          rw [e]
          exact hall j' (by omega)
      · intro hall j hj
        have e : (idx + 1) + j = idx + (j + 1) := by omega
        rw [e]
        exact hall (j + 1) (by omega)

theorem scanBucket_eq_some {p : Entry → Bool} {l : List Entry} :
    ∀ {m idx r}, scanBucket p l idx m = some r →
      ∃ j, j < m ∧ r = idx + j ∧ p (getEnt l r) = true ∧
        ∀ j', j' < j → p (getEnt l (idx + j')) = false := by
  intro m
  induction m with
  | zero => intro idx r hc; cases hc
  | succ n ih =>
    intro idx r hs
    rw [scanBucket] at hs
    by_cases hp : p (getEnt l idx) = true
    · rw [if_pos hp] at hs
      cases hs
      exact ⟨0, Nat.succ_pos n, by omega, hp, fun j' hj' => by omega⟩
    · rw [if_neg hp] at hs
      obtain ⟨j, hj, hr, hpr, hbefore⟩ := ih hs
      refine ⟨j + 1, by omega, by omega, hpr, ?_⟩
      intro j' hj'
      cases j' with
      | zero => simpa using (Bool.not_eq_true _).mp hp
      | succ j'' =>
        have e : idx + (j'' + 1) = (idx + 1) + j'' := by omega
        rw [e]
        exact hbefore j'' (by omega)

theorem scanBucket_some_of {p : Entry → Bool} {l : List Entry} :
    ∀ {m idx} (j : Nat), j < m → p (getEnt l (idx + j)) = true →
      (∀ j', j' < j → p (getEnt l (idx + j')) = false) →
      scanBucket p l idx m = some (idx + j) := by
  intro m
  induction m with
  | zero => intro idx j hj; omega
  | succ n ih =>
    intro idx j hj hp hbefore
    rw [scanBucket]
    cases j with
    | zero =>
      rw [Nat.add_zero] at hp
      rw [if_pos hp, Nat.add_zero]
    | succ j' =>
      have h0 : p (getEnt l idx) = false := by simpa using hbefore 0 (Nat.succ_pos j')
      rw [if_neg (by simp [h0])]
      have step : scanBucket p l (idx + 1) n = some ((idx + 1) + j') := by
        apply ih j' (by omega)
        · have e : (idx + 1) + j' = idx + (j' + 1) := by omega
          rw [e]
          exact hp
        · intro j'' hj''
          have e : (idx + 1) + j'' = idx + (j'' + 1) := by omega
          rw [e]
          exact hbefore (j'' + 1) (by omega)
      rw [step]
      congr 1
      omega

theorem probeSpec_none_iff {p : Entry → Bool} {arr : List Entry} {base : Nat} :
    ∀ {m j}, probeSpec p arr base j m = none ↔
      ∀ i, j ≤ i → i < j + m → p (getEnt arr ((base + i) % arr.length)) = false := by
  intro m
  induction m with
  | zero =>
    intro j
    rw [probeSpec]
    constructor
    · intro _ i h1 h2; omega
    · intro _; exact rfl
  | succ n ih =>
    intro j
    rw [probeSpec]
    by_cases hp : p (getEnt arr ((base + j) % arr.length)) = true
    · simp only [hp, if_true]
      constructor
      · intro hc; cases hc
      · intro hall
        have := hall j (Nat.le_refl j) (by omega)
        rw [hp] at this
        cases this
    · simp only [Bool.not_eq_true] at hp
      simp only [hp, Bool.false_eq_true, if_false]
      rw [ih]
      constructor
      · intro hall i h1 h2
        rcases Nat.eq_or_lt_of_le h1 with h | h
        · rw [← h]; exact hp
        · exact hall i h (by omega)
      · intro hall i h1 h2
        exact hall i (by omega) (by omega)

theorem probeSpec_eq_some {p : Entry → Bool} {arr : List Entry} {base : Nat} :
    ∀ {m j r}, probeSpec p arr base j m = some r →
      ∃ i, j ≤ i ∧ i < j + m ∧ r = (base + i) % arr.length ∧ p (getEnt arr r) = true ∧
        ∀ i', j ≤ i' → i' < i → p (getEnt arr ((base + i') % arr.length)) = false := by
  intro m
  induction m with
  | zero => intro j r hc; cases hc
  | succ n ih =>
    intro j r hs
    rw [probeSpec] at hs
    by_cases hp : p (getEnt arr ((base + j) % arr.length)) = true
    · rw [if_pos hp] at hs
      cases hs
      exact ⟨j, Nat.le_refl j, by omega, rfl, hp, fun i' h1 h2 => by omega⟩
    · rw [if_neg hp] at hs
      obtain ⟨i, h1, h2, hr, hpr, hbefore⟩ := ih hs
      refine ⟨i, by omega, by omega, hr, hpr, ?_⟩
      intro i' hi1 hi2
      rcases Nat.eq_or_lt_of_le hi1 with h | h
      · rw [← h]; simpa using (Bool.not_eq_true _).mp hp
      · exact hbefore i' h hi2

theorem probeSpec_some_of {p : Entry → Bool} {arr : List Entry} {base : Nat} :
    ∀ {m j} (i : Nat), j ≤ i → i < j + m →
      p (getEnt arr ((base + i) % arr.length)) = true →
      (∀ i', j ≤ i' → i' < i → p (getEnt arr ((base + i') % arr.length)) = false) →
      probeSpec p arr base j m = some ((base + i) % arr.length) := by
  intro m
  induction m with
  | zero => intro j i h1 h2; omega
  | succ n ih =>
    intro j i h1 h2 hp hbefore
    rw [probeSpec]
    rcases Nat.eq_or_lt_of_le h1 with h | h
    · rw [← h] at hp ⊢
      rw [if_pos hp]
    · have h0 : p (getEnt arr ((base + j) % arr.length)) = false :=
        hbefore j (Nat.le_refl j) h
      rw [if_neg (by simp [h0])]
      exact ih i h (by omega) hp (fun i' ha hb => hbefore i' (by omega) hb)

theorem wf_parts {t : FunnelHashTable} (h : t.WF = true) :
    1 ≤ t.beta ∧ 1 ≤ t.probe_limit ∧ 1 ≤ t.special_array.length ∧
      levelsWF t.beta t.levels t.level_bucket_counts t.level_salts = true := by
  unfold FunnelHashTable.WF at h
  simp only [Bool.and_eq_true, decide_eq_true_eq] at h
  exact ⟨h.1.1.1, h.1.1.2, h.1.2, h.2⟩

theorem window_lt {count beta len b j : Nat} (hlen : len = count * beta)
    (hb : b < count) (hj : j < beta) : b * beta + j < len := by
  rw [hlen]
  calc b * beta + j < b * beta + beta := by omega
    _ = (b + 1) * beta := by ring
    _ ≤ count * beta := Nat.mul_le_mul_right beta (by omega)

theorem matchP_insert_entry (k v : Nat) : matchP k ⟨k, v, true⟩ = true := by
  simp [matchP]

theorem insertLevels_get (h : Nat → Nat) (beta k v : Nat) :
    ∀ {ls : List (List Entry)} {cs ss : List Nat} {ls' : List (List Entry)},
      levelsWF beta ls cs ss = true →
      insertLevels h beta k v ls cs ss = some ls' →
      getLevels h beta k ls' cs ss = some v := by
  intro ls
  induction ls with
  | nil => intro cs ss ls' hwf hins; cases hins
  | cons level ls ih =>
    intro cs ss ls' hwf hins
    cases cs with
    | nil => cases hwf
    | cons count cs =>
      cases ss with
      | nil => cases hwf
      | cons salt ss =>
        rw [levelsWF] at hwf
        simp only [Bool.and_eq_true, decide_eq_true_eq] at hwf
        obtain ⟨⟨hc, hlen⟩, hwftail⟩ := hwf
        rw [insertLevels] at hins
        cases hscan : scanBucket (insP k) level (fhash h k salt % count * beta) beta with
        | some idx =>
          rw [hscan] at hins
          cases hins
          obtain ⟨j, hj, hr, hp, hbefore⟩ := scanBucket_eq_some hscan
          have hblt : fhash h k salt % count < count := Nat.mod_lt _ (by omega)
          have hidxlt : idx < level.length := by
            rw [hr]
            exact window_lt hlen hblt hj
          have hscan2 : scanBucket (matchP k) (level.set idx ⟨k, v, true⟩)
              (fhash h k salt % count * beta) beta = some idx := by
            rw [hr]
            apply scanBucket_some_of j hj
            · rw [← hr, getEnt_set_self _ hidxlt]
              exact matchP_insert_entry k v
            · intro j' hj'
              rw [getEnt_set_ne _ (by omega)]
              exact matchP_false_of_insP_false (hbefore j' hj')
          rw [getLevels, hscan2]
          dsimp only
          rw [getEnt_set_self _ hidxlt]
        | none =>
          rw [hscan] at hins
          cases htail : insertLevels h beta k v ls cs ss with
          | none => rw [htail] at hins; cases hins
          | some ls2 =>
            rw [htail] at hins
            simp only [Option.map_some'] at hins
            cases hins
            have hscanm : scanBucket (matchP k) level (fhash h k salt % count * beta) beta
                = none := by
              rw [scanBucket_none_iff]
              intro j hj
              exact matchP_false_of_insP_false (scanBucket_none_iff.mp hscan j hj)
            rw [getLevels, hscanm]
            exact ih hwftail htail

theorem getLevels_none_of_insertLevels_none {h : Nat → Nat} {beta k v : Nat} :
    ∀ {ls : List (List Entry)} {cs ss : List Nat},
      insertLevels h beta k v ls cs ss = none → getLevels h beta k ls cs ss = none := by
  intro ls
  induction ls with
  | nil => intro cs ss _; rfl
  | cons level ls ih =>
    intro cs ss hins
    cases cs with
    | nil => rfl
    | cons count cs =>
      cases ss with
      | nil => rfl
      | cons salt ss =>
        rw [insertLevels] at hins
        cases hscan : scanBucket (insP k) level (fhash h k salt % count * beta) beta with
        | some idx => rw [hscan] at hins; cases hins
        | none =>
          rw [hscan] at hins
          have hscanm : scanBucket (matchP k) level (fhash h k salt % count * beta) beta
              = none := by
            rw [scanBucket_none_iff]
            intro j hj
            exact matchP_false_of_insP_false (scanBucket_none_iff.mp hscan j hj)
          rw [getLevels, hscanm]
          apply ih
          cases htail : insertLevels h beta k v ls cs ss with
          | none => rfl
          | some ls2 => rw [htail] at hins; cases hins

theorem insert_get {t t' : FunnelHashTable} {h : Nat → Nat} {k v : Nat}
    (hwf : t.WF = true) (hok : t.insert h k v = .ok t') : t'.get? h k = some v := by
  obtain ⟨hbeta, hprobe1, hspec1, hwl⟩ := wf_parts hwf
  unfold FunnelHashTable.insert at hok
  by_cases hfull : (t.max_inserts : Int) ≤ t.num_inserts
  · rw [if_pos hfull] at hok; cases hok
  · rw [if_neg hfull] at hok
    cases hins : insertLevels h t.beta k v t.levels t.level_bucket_counts t.level_salts with
    | some ls =>
      rw [hins] at hok
      cases hok
      unfold FunnelHashTable.get?
      dsimp only
      rw [insertLevels_get h t.beta k v hwl hins]
    | none =>
      rw [hins] at hok
      cases hpr : probeSpec (insP k) t.special_array (fhash h k t.special_salt) 0
          t.probe_limit with
      | none => rw [hpr] at hok; cases hok
      | some idx =>
        rw [hpr] at hok
        cases hok
        unfold FunnelHashTable.get?
        dsimp only
        rw [getLevels_none_of_insertLevels_none hins]
        obtain ⟨i, h0i, hilt, hidx, hp, hbefore⟩ := probeSpec_eq_some hpr
        have hidxlt : idx < t.special_array.length := by
          rw [hidx]
          exact Nat.mod_lt _ (by omega)
        have hpr2 : probeSpec (matchP k) (t.special_array.set idx ⟨k, v, true⟩)
            (fhash h k t.special_salt) 0 t.probe_limit = some idx := by
          have hlen : (t.special_array.set idx ⟨k, v, true⟩).length
              = t.special_array.length := List.length_set t.special_array idx _
          have := @probeSpec_some_of (matchP k)
            (t.special_array.set idx ⟨k, v, true⟩)
            (fhash h k t.special_salt) t.probe_limit 0 i h0i
            (by omega) ?_ ?_
          · rw [this, hlen, ← hidx]
          · rw [hlen, ← hidx, getEnt_set_self _ hidxlt]
            exact matchP_insert_entry k v
          · intro i' h0i' hi'
            rw [hlen]
            have hne : (fhash h k t.special_salt + i') % t.special_array.length ≠ idx := by
              intro heq
              have := hbefore i' h0i' hi'
              rw [heq] at this
              rw [this] at hp
              cases hp
            rw [getEnt_set_ne _ hne]
            exact matchP_false_of_insP_false (hbefore i' h0i' hi')
        rw [hpr2]
        dsimp only
        rw [getEnt_set_self _ hidxlt]

theorem matchP_false_of_insP_other {k k' : Nat} {e : Entry} (hk : k' ≠ k)
    (hp : insP k' e = true) : matchP k e = false := by
  unfold insP at hp
  unfold matchP
  simp only [Bool.or_eq_true, Bool.not_eq_eq_eq_not, Bool.not_true, beq_iff_eq] at hp
  rcases hp with hocc | hkey
  · simp [hocc]
  · subst hkey
    simp [hk]

theorem matchP_false_of_matchP_other {k k' : Nat} {e : Entry} (hk : k' ≠ k)
    (hm : matchP k' e = true) : matchP k e = false := by
  rw [matchP_true_iff] at hm
  unfold matchP
  simp [hm.2, hk]

theorem frameR_refl (k : Nat) (l : List Entry) : frameR k l l :=
  ⟨fun _ => rfl, fun _ _ => rfl⟩

theorem frameR_set_other {k k' v' : Nat} {l : List Entry} {idx : Nat}
    (hk : k' ≠ k) (hp : insP k' (getEnt l idx) = true) :
    frameR k l (l.set idx ⟨k', v', true⟩) := by
  constructor
  · intro i
    by_cases hi : i = idx
    · subst hi
      by_cases hlt : i < l.length
      · rw [getEnt_set_self _ hlt]
        rw [matchP_false_of_insP_other hk hp]
        have hnew : insP k' (⟨k', v', true⟩ : Entry) = true := by simp [insP]
        rw [matchP_false_of_insP_other hk hnew]
      · have hle : l.length ≤ i := Nat.le_of_not_lt hlt
        rw [getEnt_of_le (by simpa using hle), getEnt_of_le hle]
    · rw [getEnt_set_ne _ hi]
  · intro i hm
    by_cases hi : i = idx
    · subst hi
      rw [matchP_false_of_insP_other hk hp] at hm
      cases hm
    · rw [getEnt_set_ne _ hi]

theorem frameR_del_other {k k' : Nat} {l : List Entry} {idx : Nat}
    (hk : k' ≠ k) (hm : matchP k' (getEnt l idx) = true) :
    frameR k l (l.set idx Entry.empty) := by
  have hlt : idx < l.length := matchP_getEnt_lt hm
  constructor
  · intro i
    by_cases hi : i = idx
    · subst hi
      rw [getEnt_set_self _ hlt]
      rw [matchP_false_of_matchP_other hk hm, matchP_empty]
    · rw [getEnt_set_ne _ hi]
  · intro i him
    by_cases hi : i = idx
    · subst hi
      rw [matchP_false_of_matchP_other hk hm] at him
      cases him
    · rw [getEnt_set_ne _ hi]

theorem scanBucket_congrP {p : Entry → Bool} {l l' : List Entry}
    (hp : ∀ i, p (getEnt l' i) = p (getEnt l i)) :
    ∀ m idx, scanBucket p l' idx m = scanBucket p l idx m := by
  intro m
  induction m with
  | zero => intro idx; rfl
  | succ n ih =>
    intro idx
    rw [scanBucket, scanBucket, hp idx, ih (idx + 1)]

theorem probeSpec_congrP {p : Entry → Bool} {arr arr' : List Entry}
    (hlen : arr'.length = arr.length)
    (hp : ∀ i, p (getEnt arr' i) = p (getEnt arr i)) :
    ∀ m j base, probeSpec p arr' base j m = probeSpec p arr base j m := by
  intro m
  induction m with
  | zero => intro j base; rfl
  | succ n ih =>
    intro j base
    rw [probeSpec, probeSpec, hlen, hp ((base + j) % arr.length), ih (j + 1)]

theorem getLevels_frame {h : Nat → Nat} {beta k : Nat} :
    ∀ {ls ls' : List (List Entry)}, List.Forall₂ (frameR k) ls ls' →
      ∀ (cs ss : List Nat), getLevels h beta k ls' cs ss = getLevels h beta k ls cs ss := by
  intro ls ls' hrel
  induction hrel with
  | nil => intro cs ss; rfl
  | cons hR hrest ih =>
    intro cs ss
    cases cs with
    | nil => rfl
    | cons count cs =>
      cases ss with
      | nil => rfl
      | cons salt ss =>
        rw [getLevels, getLevels]
        rw [scanBucket_congrP hR.1]
        cases hscan : scanBucket (matchP k) _ (fhash h k salt % count * beta) beta with
        | some idx =>
          dsimp only
          obtain ⟨j, hj, hr, hm, _⟩ := scanBucket_eq_some hscan
          rw [hR.2 idx hm]
        | none =>
          dsimp only
          exact ih cs ss

theorem insertLevels_rel {h : Nat → Nat} {beta k' v' k : Nat} (hk : k' ≠ k) :
    ∀ {ls : List (List Entry)} {cs ss : List Nat} {ls' : List (List Entry)},
      insertLevels h beta k' v' ls cs ss = some ls' → List.Forall₂ (frameR k) ls ls' := by
  intro ls
  induction ls with
  | nil => intro cs ss ls' hins; cases hins
  | cons level ls ih =>
    intro cs ss ls' hins
    cases cs with
    | nil => cases hins
    | cons count cs =>
      cases ss with
      | nil => cases hins
      | cons salt ss =>
        rw [insertLevels] at hins
        cases hscan : scanBucket (insP k') level (fhash h k' salt % count * beta) beta with
        | some idx =>
          rw [hscan] at hins
          cases hins
          obtain ⟨j, hj, hr, hp, _⟩ := scanBucket_eq_some hscan
          exact List.Forall₂.cons (frameR_set_other hk hp)
            ((List.forall₂_same).mpr (fun l _ => frameR_refl k l))
        | none =>
          rw [hscan] at hins
          cases htail : insertLevels h beta k' v' ls cs ss with
          | none => rw [htail] at hins; cases hins
          | some ls2 =>
            rw [htail] at hins
            simp only [Option.map_some'] at hins
            cases hins
            exact List.Forall₂.cons (frameR_refl k level) (ih htail)

theorem delLevels_rel {h : Nat → Nat} {beta k' k : Nat} (hk : k' ≠ k) :
    ∀ {ls : List (List Entry)} {cs ss : List Nat} {ls' : List (List Entry)},
      delLevels h beta k' ls cs ss = some ls' → List.Forall₂ (frameR k) ls ls' := by
  intro ls
  induction ls with
  | nil => intro cs ss ls' hdel; cases hdel
  | cons level ls ih =>
    intro cs ss ls' hdel
    cases cs with
    | nil => cases hdel
    | cons count cs =>
      cases ss with
      | nil => cases hdel
      | cons salt ss =>
        rw [delLevels] at hdel
        cases hscan : scanBucket (matchP k') level (fhash h k' salt % count * beta) beta with
        | some idx =>
          rw [hscan] at hdel
          cases hdel
          obtain ⟨j, hj, hr, hm, _⟩ := scanBucket_eq_some hscan
          exact List.Forall₂.cons (frameR_del_other hk hm)
            ((List.forall₂_same).mpr (fun l _ => frameR_refl k l))
        | none =>
          rw [hscan] at hdel
          cases htail : delLevels h beta k' ls cs ss with
          | none => rw [htail] at hdel; cases hdel
          | some ls2 =>
            rw [htail] at hdel
            simp only [Option.map_some'] at hdel
            cases hdel
            exact List.Forall₂.cons (frameR_refl k level) (ih htail)

theorem get?_congr {t t' : FunnelHashTable} {h : Nat → Nat} {k : Nat}
    (hbeta : t'.beta = t.beta) (hcs : t'.level_bucket_counts = t.level_bucket_counts)
    (hss : t'.level_salts = t.level_salts) (hssalt : t'.special_salt = t.special_salt)
    (hpl : t'.probe_limit = t.probe_limit)
    (hrel : List.Forall₂ (frameR k) t.levels t'.levels)
    (hsrel : frameR k t.special_array t'.special_array)
    (hslen : t'.special_array.length = t.special_array.length) :
    t'.get? h k = t.get? h k := by
  unfold FunnelHashTable.get?
  rw [hbeta, hcs, hss, hssalt, hpl]
  rw [getLevels_frame hrel]
  cases getLevels h t.beta k t.levels t.level_bucket_counts t.level_salts with
  | some v => rfl
  | none =>
    dsimp only
    rw [probeSpec_congrP hslen hsrel.1]
    cases hpr : probeSpec (matchP k) t.special_array (fhash h k t.special_salt) 0
        t.probe_limit with
    | none => rfl
    | some idx =>
      dsimp only
      obtain ⟨i, _, _, _, hm, _⟩ := probeSpec_eq_some hpr
      rw [hsrel.2 idx hm]

theorem insert_frame {t t' : FunnelHashTable} {h : Nat → Nat} {k' v' k : Nat}
    (hk : k' ≠ k) (hok : t.insert h k' v' = .ok t') : t'.get? h k = t.get? h k := by
  unfold FunnelHashTable.insert at hok
  by_cases hfull : (t.max_inserts : Int) ≤ t.num_inserts
  · rw [if_pos hfull] at hok; cases hok
  · rw [if_neg hfull] at hok
    cases hins : insertLevels h t.beta k' v' t.levels t.level_bucket_counts t.level_salts with
    | some ls =>
      rw [hins] at hok
      cases hok
      exact get?_congr rfl rfl rfl rfl rfl (insertLevels_rel hk hins)
        (frameR_refl k t.special_array) rfl
    | none =>
      rw [hins] at hok
      cases hpr : probeSpec (insP k') t.special_array (fhash h k' t.special_salt) 0
          t.probe_limit with
      | none => rw [hpr] at hok; cases hok
      | some idx =>
        rw [hpr] at hok
        cases hok
        obtain ⟨i, _, _, _, hp, _⟩ := probeSpec_eq_some hpr
        exact get?_congr rfl rfl rfl rfl rfl
          ((List.forall₂_same).mpr (fun l _ => frameR_refl k l))
          (frameR_set_other hk hp) (List.length_set _ _ _)

theorem delitem_frame {t t' : FunnelHashTable} {h : Nat → Nat} {k' k : Nat}
    (hk : k' ≠ k) (hdel : t.delitem h k' = some t') : t'.get? h k = t.get? h k := by
  unfold FunnelHashTable.delitem at hdel
  cases hdl : delLevels h t.beta k' t.levels t.level_bucket_counts t.level_salts with
  | some ls =>
    rw [hdl] at hdel
    cases hdel
    exact get?_congr rfl rfl rfl rfl rfl (delLevels_rel hk hdl)
      (frameR_refl k t.special_array) rfl
  | none =>
    rw [hdl] at hdel
    cases hpr : probeSpec (matchP k') t.special_array (fhash h k' t.special_salt) 0
        t.probe_limit with
    | none => rw [hpr] at hdel; cases hdel
    | some idx =>
      rw [hpr] at hdel
      cases hdel
      obtain ⟨i, _, _, _, hm, _⟩ := probeSpec_eq_some hpr
      exact get?_congr rfl rfl rfl rfl rfl
        ((List.forall₂_same).mpr (fun l _ => frameR_refl k l))
        (frameR_del_other hk hm) (List.length_set _ _ _)

theorem applyOp_get?_frame {t : FunnelHashTable} {h : Nat → Nat} {k : Nat} {op : Op}
    (hop : touches k op = false) : (applyOp h t op).get? h k = t.get? h k := by
  cases op with
  | ins k' v' =>
    have hk : k' ≠ k := by simpa [touches] using hop
    simp only [applyOp]
    unfold FunnelHashTable.insertR
    cases hok : t.insert h k' v' with
    | ok t' => exact insert_frame hk hok
    | error e => rfl
  | del k' =>
    have hk : k' ≠ k := by simpa [touches] using hop
    simp only [applyOp]
    cases hdel : t.delitem h k' with
    | some t' => exact delitem_frame hk hdel
    | none => rfl
  | popOp k' =>
    have hk : k' ≠ k := by simpa [touches] using hop
    simp only [applyOp]
    unfold FunnelHashTable.pop
    cases t.get? h k' with
    | none => rfl
    | some v =>
      dsimp only
      cases hdel : t.delitem h k' with
      | some t' => exact delitem_frame hk hdel
      | none => rfl
  | clearOp => simp [touches] at hop

theorem applyOps_get?_frame {h : Nat → Nat} {k : Nat} :
    ∀ {ops : List Op} {t : FunnelHashTable}, (∀ op ∈ ops, touches k op = false) →
      (applyOps h t ops).get? h k = t.get? h k := by
  intro ops
  induction ops with
  | nil => intro t _; rfl
  | cons op ops ih =>
    intro t hops
    rw [applyOps]
    rw [ih (fun o ho => hops o (List.mem_cons_of_mem op ho))]
    exact applyOp_get?_frame (hops op (List.mem_cons_self op ops))

theorem insertLevels_wf {h : Nat → Nat} {beta k v : Nat} :
    ∀ {ls : List (List Entry)} {cs ss : List Nat} {ls' : List (List Entry)},
      insertLevels h beta k v ls cs ss = some ls' →
      levelsWF beta ls cs ss = true → levelsWF beta ls' cs ss = true := by
  intro ls
  induction ls with
  | nil => intro cs ss ls' hins _; cases hins
  | cons level ls ih =>
    intro cs ss ls' hins hwf
    cases cs with
    | nil => cases hwf
    | cons count cs =>
      cases ss with
      | nil => cases hwf
      | cons salt ss =>
        rw [levelsWF] at hwf
        simp only [Bool.and_eq_true, decide_eq_true_eq] at hwf
        obtain ⟨⟨hc, hlen⟩, hwftail⟩ := hwf
        rw [insertLevels] at hins
        cases hscan : scanBucket (insP k) level (fhash h k salt % count * beta) beta with
        | some idx =>
          rw [hscan] at hins
          cases hins
          rw [levelsWF]
          simp only [Bool.and_eq_true, decide_eq_true_eq]
          exact ⟨⟨hc, by rw [List.length_set]; exact hlen⟩, hwftail⟩
        | none =>
          rw [hscan] at hins
          cases htail : insertLevels h beta k v ls cs ss with
          | none => rw [htail] at hins; cases hins
          | some ls2 =>
            rw [htail] at hins
            simp only [Option.map_some'] at hins
            cases hins
            rw [levelsWF]
            simp only [Bool.and_eq_true, decide_eq_true_eq]
            exact ⟨⟨hc, hlen⟩, ih htail hwftail⟩

theorem delLevels_wf {h : Nat → Nat} {beta k : Nat} :
    ∀ {ls : List (List Entry)} {cs ss : List Nat} {ls' : List (List Entry)},
      delLevels h beta k ls cs ss = some ls' →
      levelsWF beta ls cs ss = true → levelsWF beta ls' cs ss = true := by
  intro ls
  induction ls with
  | nil => intro cs ss ls' hdel _; cases hdel
  | cons level ls ih =>
    intro cs ss ls' hdel hwf
    cases cs with
    | nil => cases hwf
    | cons count cs =>
      cases ss with
      | nil => cases hwf
      | cons salt ss =>
        rw [levelsWF] at hwf
        simp only [Bool.and_eq_true, decide_eq_true_eq] at hwf
        obtain ⟨⟨hc, hlen⟩, hwftail⟩ := hwf
        rw [delLevels] at hdel
        cases hscan : scanBucket (matchP k) level (fhash h k salt % count * beta) beta with
        | some idx =>
          rw [hscan] at hdel
          cases hdel
          rw [levelsWF]
          simp only [Bool.and_eq_true, decide_eq_true_eq]
          exact ⟨⟨hc, by rw [List.length_set]; exact hlen⟩, hwftail⟩
        | none =>
          rw [hscan] at hdel
          cases htail : delLevels h beta k ls cs ss with
          | none => rw [htail] at hdel; cases hdel
          | some ls2 =>
            rw [htail] at hdel
            simp only [Option.map_some'] at hdel
            cases hdel
            rw [levelsWF]
            simp only [Bool.and_eq_true, decide_eq_true_eq]
            exact ⟨⟨hc, hlen⟩, ih htail hwftail⟩

theorem insert_wf {t t' : FunnelHashTable} {h : Nat → Nat} {k v : Nat}
    (hwf : t.WF = true) (hok : t.insert h k v = .ok t') : t'.WF = true := by
  obtain ⟨hbeta, hpl, hsl, hwl⟩ := wf_parts hwf
  unfold FunnelHashTable.insert at hok
  by_cases hfull : (t.max_inserts : Int) ≤ t.num_inserts
  · rw [if_pos hfull] at hok; cases hok
  · rw [if_neg hfull] at hok
    cases hins : insertLevels h t.beta k v t.levels t.level_bucket_counts t.level_salts with
    | some ls =>
      rw [hins] at hok
      cases hok
      unfold FunnelHashTable.WF
      dsimp only
      simp only [Bool.and_eq_true, decide_eq_true_eq]
      exact ⟨⟨⟨hbeta, hpl⟩, hsl⟩, insertLevels_wf hins hwl⟩
    | none =>
      rw [hins] at hok
      cases hpr : probeSpec (insP k) t.special_array (fhash h k t.special_salt) 0
          t.probe_limit with
      | none => rw [hpr] at hok; cases hok
      | some idx =>
        rw [hpr] at hok
        cases hok
        unfold FunnelHashTable.WF
        dsimp only
        simp only [Bool.and_eq_true, decide_eq_true_eq]
        rw [List.length_set]
        exact ⟨⟨⟨hbeta, hpl⟩, hsl⟩, hwl⟩

theorem delitem_wf {t t' : FunnelHashTable} {h : Nat → Nat} {k : Nat}
    (hwf : t.WF = true) (hdel : t.delitem h k = some t') : t'.WF = true := by
  obtain ⟨hbeta, hpl, hsl, hwl⟩ := wf_parts hwf
  unfold FunnelHashTable.delitem at hdel
  cases hdl : delLevels h t.beta k t.levels t.level_bucket_counts t.level_salts with
  | some ls =>
    rw [hdl] at hdel
    cases hdel
    unfold FunnelHashTable.WF
    dsimp only
    simp only [Bool.and_eq_true, decide_eq_true_eq]
    exact ⟨⟨⟨hbeta, hpl⟩, hsl⟩, delLevels_wf hdl hwl⟩
  | none =>
    rw [hdl] at hdel
    cases hpr : probeSpec (matchP k) t.special_array (fhash h k t.special_salt) 0
        t.probe_limit with
    | none => rw [hpr] at hdel; cases hdel
    | some idx =>
      rw [hpr] at hdel
      cases hdel
      unfold FunnelHashTable.WF
      dsimp only
      simp only [Bool.and_eq_true, decide_eq_true_eq]
      rw [List.length_set]
      exact ⟨⟨⟨hbeta, hpl⟩, hsl⟩, hwl⟩

/-- C1: after a successful `insert(k, v)` on a well-formed table, `get(k)`
returns `v` and `k in table` is true, and both persist across any further
sequence of operations that do not touch `k` — inserts, deletes and pops of
other keys; a later `delete(k)`/`pop(k)`, an overwrite of `k`, or `clear`
are exactly the operations `touches` flags. -/
theorem C1_insert_then_get_until_removed {t t' : FunnelHashTable} {h : Nat → Nat}
    {k v : Nat} {ops : List Op} (hwf : t.WF = true) (hins : t.insert h k v = .ok t')
    (hops : ∀ op ∈ ops, touches k op = false) :
    (applyOps h t' ops).get? h k = some v ∧ (applyOps h t' ops).contains h k = true := by
  have hg : (applyOps h t' ops).get? h k = some v := by
    rw [applyOps_get?_frame hops]
    exact insert_get hwf hins
  refine ⟨hg, ?_⟩
  unfold FunnelHashTable.contains
  rw [hg]
  rfl

theorem C1_witness :
    t0c.WF = true ∧ t0c.insert hid 0 10 = .ok t1c ∧
      (∀ op ∈ [Op.ins 1 5], touches 0 op = false) ∧
      (applyOps hid t1c [Op.ins 1 5]).get? hid 0 = some 10 ∧
      (applyOps hid t1c [Op.ins 1 5]).contains hid 0 = true := by
  have hmain := @C1_insert_then_get_until_removed t0c t1c hid 0 10 [Op.ins 1 5]
    (by decide) rfl (by decide)
  exact ⟨by decide, rfl, by decide, hmain.1, hmain.2⟩

/-- C5: an `insert` invoked when `num_inserts >= max_inserts` raises the
capacity-exhaustion `RuntimeError` before touching anything, so the table
state is unchanged. -/
theorem C5_capacity_exhaustion {t : FunnelHashTable} {h : Nat → Nat} {k v : Nat}
    (hfull : t.num_inserts ≥ (t.max_inserts : Int)) :
    t.insert h k v = .error .full ∧ t.insertR h k v = t := by
  constructor
  · unfold FunnelHashTable.insert
    rw [if_pos hfull]
  · unfold FunnelHashTable.insertR FunnelHashTable.insert
    rw [if_pos hfull]

theorem C5_witness :
    t2c.num_inserts ≥ (t2c.max_inserts : Int) ∧
      t2c.insert hid 7 7 = .error .full ∧ t2c.insertR hid 7 7 = t2c := by
  refine ⟨by decide, ?_, ?_⟩
  · exact (C5_capacity_exhaustion (by decide)).1
  · exact (C5_capacity_exhaustion (by decide)).2

/-- C4: every successful `insert` call increments `num_inserts` (the value
`__len__` reports), including calls that overwrite an occupied slot holding
the same key; consequently the reported length can exceed the number of
distinct occupied slots, as the state `t2c` reached by inserting key 0
twice shows: its length is 2 while only one slot is occupied. -/
theorem C4_len_increments_on_every_insert :
    (∀ (t t' : FunnelHashTable) (h : Nat → Nat) (k v : Nat),
        t.insert h k v = .ok t' → t'.len = t.len + 1) ∧
      t2c = applyOps hid t0c [Op.ins 0 10, Op.ins 0 20] ∧
      t1c.contains hid 0 = true ∧ t2c.len = 2 ∧ occupiedCount t2c = 1 ∧
      occupiedCount t2c < (t2c.len).toNat := by
  refine ⟨?_, by rfl, by decide, by decide, by decide, by decide⟩
  intro t t' h k v hok
  unfold FunnelHashTable.insert at hok
  by_cases hfull : (t.max_inserts : Int) ≤ t.num_inserts
  · rw [if_pos hfull] at hok; cases hok
  · rw [if_neg hfull] at hok
    cases hins : insertLevels h t.beta k v t.levels t.level_bucket_counts t.level_salts with
    | some ls =>
      rw [hins] at hok
      cases hok
      rfl
    | none =>
      rw [hins] at hok
      cases hpr : probeSpec (insP k) t.special_array (fhash h k t.special_salt) 0
          t.probe_limit with
      | none => rw [hpr] at hok; cases hok
      | some idx =>
        rw [hpr] at hok
        cases hok
        rfl

theorem C4_witness :
    t0c.insert hid 0 10 = .ok t1c ∧ t1c.len = t0c.len + 1 :=
  ⟨rfl, C4_len_increments_on_every_insert.1 t0c t1c hid 0 10 rfl⟩

theorem levelsWF_parts {beta : Nat} :
    ∀ {ls : List (List Entry)} {cs ss : List Nat}, levelsWF beta ls cs ss = true →
      cs.length = ls.length ∧ ss.length = ls.length ∧
        ∀ i, i < ls.length →
          1 ≤ cs.getD i 0 ∧ (ls.getD i []).length = cs.getD i 0 * beta := by
  intro ls
  induction ls with
  | nil =>
    intro cs ss hwf
    cases cs with
    | cons c cs => cases ss <;> cases hwf
    | nil =>
      cases ss with
      | cons s ss => cases hwf
      | nil => exact ⟨rfl, rfl, fun i hi => absurd hi (by simp)⟩
  | cons level ls ih =>
    intro cs ss hwf
    cases cs with
    | nil => cases hwf
    | cons count cs =>
      cases ss with
      | nil => cases hwf
      | cons salt ss =>
        rw [levelsWF] at hwf
        simp only [Bool.and_eq_true, decide_eq_true_eq] at hwf
        obtain ⟨⟨hc, hlen⟩, hwftail⟩ := hwf
        obtain ⟨h1, h2, h3⟩ := ih hwftail
        refine ⟨by simpa using h1, by simpa using h2, ?_⟩
        intro i hi
        cases i with
        | zero => exact ⟨hc, hlen⟩
        | succ i' => exact h3 i' (by simpa using hi)

/-- C10: on a well-formed table (as produced by `__init__`), every index any
operation computes for key `k` is in bounds: the salt-mixed hash is masked to
a value below `2^31`, the per-level bucket index is below the level's
positive bucket count so that the whole scanned bucket window lies inside the
level's slot list, and every special-array probe index is below the positive
special size. -/
theorem C10_all_indices_in_bounds {t : FunnelHashTable} {h : Nat → Nat} {k : Nat}
    (hwf : t.WF = true) :
    (∀ salt, fhash h k salt < 2 ^ 31) ∧
      (∀ i, i < t.levels.length →
        1 ≤ t.level_bucket_counts.getD i 0 ∧
          fhash h k (t.level_salts.getD i 0) % t.level_bucket_counts.getD i 0
              < t.level_bucket_counts.getD i 0 ∧
          ∀ j, j < t.beta →
            fhash h k (t.level_salts.getD i 0) % t.level_bucket_counts.getD i 0 * t.beta + j
                < (t.levels.getD i []).length) ∧
      1 ≤ t.special_array.length ∧
      ∀ j, (fhash h k t.special_salt + j) % t.special_array.length
          < t.special_array.length := by
  obtain ⟨hbeta, hpl, hsl, hwl⟩ := wf_parts hwf
  obtain ⟨hcs, hss, hper⟩ := levelsWF_parts hwl
  refine ⟨?_, ?_, hsl, ?_⟩
  · intro salt
    unfold fhash
    calc (h k ^^^ salt) &&& 0x7FFFFFFF ≤ 0x7FFFFFFF := Nat.and_le_right
      _ < 2 ^ 31 := by norm_num
  · intro i hi
    obtain ⟨hc, hlen⟩ := hper i hi
    have hmod : fhash h k (t.level_salts.getD i 0) % t.level_bucket_counts.getD i 0
        < t.level_bucket_counts.getD i 0 := Nat.mod_lt _ (by omega)
    exact ⟨hc, hmod, fun j hj => window_lt hlen hmod hj⟩
  · intro j
    exact Nat.mod_lt _ (by omega)

theorem C10_witness :
    t0c.WF = true ∧
      ((∀ salt, fhash hid 0 salt < 2 ^ 31) ∧
        (∀ i, i < t0c.levels.length →
          1 ≤ t0c.level_bucket_counts.getD i 0 ∧
            fhash hid 0 (t0c.level_salts.getD i 0) % t0c.level_bucket_counts.getD i 0
                < t0c.level_bucket_counts.getD i 0 ∧
            ∀ j, j < t0c.beta →
              fhash hid 0 (t0c.level_salts.getD i 0) % t0c.level_bucket_counts.getD i 0
                    * t0c.beta + j
                  < (t0c.levels.getD i []).length) ∧
        1 ≤ t0c.special_array.length ∧
        ∀ j, (fhash hid 0 t0c.special_salt + j) % t0c.special_array.length
            < t0c.special_array.length) :=
  ⟨by decide, C10_all_indices_in_bounds (by decide)⟩


theorem filterMap_set_multiset {α : Type} (f : Entry → Option α) :
    ∀ (l : List Entry) (i : Nat), i < l.length → ∀ (e : Entry),
      (↑((l.set i e).filterMap f) : Multiset α) + ↑(f (getEnt l i)).toList =
        (↑(l.filterMap f) : Multiset α) + ↑(f e).toList := by
  intro l
  induction l with
  | nil => intro i hi; exact absurd hi (by simp)
  | cons a l ih =>
    intro i hi e
    cases i with
    | zero =>
      have hget : getEnt (a :: l) 0 = a := rfl
      rw [hget, List.set_cons_zero]
      cases hfa : f a with
      | none =>
        cases hfe : f e with
        | none => simp [List.filterMap_cons, hfa, hfe]
        | some b =>
          simp only [List.filterMap_cons, hfa, hfe, Option.toList_some, Option.toList_none]
          simp only [← Multiset.cons_coe, Multiset.coe_singleton, Multiset.coe_nil,
            ← Multiset.singleton_add, add_zero]
          abel
      | some b =>
        cases hfe : f e with
        | none =>
          simp only [List.filterMap_cons, hfa, hfe, Option.toList_some, Option.toList_none]
          simp only [← Multiset.cons_coe, Multiset.coe_singleton, Multiset.coe_nil,
            ← Multiset.singleton_add, add_zero]
          abel
        | some c =>
          simp only [List.filterMap_cons, hfa, hfe, Option.toList_some, Option.toList_none]
          simp only [← Multiset.cons_coe, Multiset.coe_singleton, Multiset.coe_nil,
            ← Multiset.singleton_add, add_zero]
          abel
    | succ i' =>
      have hget : getEnt (a :: l) (i' + 1) = getEnt l i' := rfl
      rw [hget, List.set_cons_succ]
      have hi' : i' < l.length := by simpa using hi
      cases hfa : f a with
      | none =>
        simp only [List.filterMap_cons, hfa]
        exact ih i' hi' e
      | some b =>
        simp only [List.filterMap_cons, hfa]
        rw [← Multiset.cons_coe, ← Multiset.cons_coe, Multiset.cons_add, Multiset.cons_add,
          ih i' hi' e]

theorem flatten_set_multiset {α : Type} :
    ∀ (L : List (List α)) (n : Nat), n < L.length → ∀ (x : List α),
      (↑((L.set n x).flatten) : Multiset α) + ↑(L.getD n []) =
        (↑L.flatten : Multiset α) + ↑x := by
  intro L
  induction L with
  | nil => intro n hn; exact absurd hn (by simp)
  | cons a L ih =>
    intro n hn x
    cases n with
    | zero =>
      rw [List.set_cons_zero]
      have hget : (a :: L).getD 0 [] = a := rfl
      rw [hget, List.flatten_cons, List.flatten_cons]
      rw [← Multiset.coe_add, ← Multiset.coe_add]
      abel
    | succ n' =>
      rw [List.set_cons_succ]
      have hget : (a :: L).getD (n' + 1) [] = L.getD n' [] := rfl
      rw [hget, List.flatten_cons, List.flatten_cons]
      rw [← Multiset.coe_add, ← Multiset.coe_add]
      have hn' : n' < L.length := by simpa using hn
      have := ih n' hn' x
      rw [add_assoc, this, add_assoc]

theorem getD_map_filterMap {L : List (List Entry)} {n : Nat} (hn : n < L.length) :
    (L.map (fun l => l.filterMap occPair)).getD n [] = (L.getD n []).filterMap occPair := by
  rw [List.getD_eq_getElem?_getD, List.getD_eq_getElem?_getD, List.getElem?_map,
    List.getElem?_eq_getElem hn]
  rfl

theorem multiset_rearrange {α : Type} {A A' Y Y' O E S : Multiset α}
    (hA : A' + Y = A + Y') (hY : Y' + O = Y + E) :
    A' + S + O = A + S + E := by
  have h2 : (A' + O) + Y = (A + E) + Y := by
    calc (A' + O) + Y = (A' + Y) + O := by abel
      _ = (A + Y') + O := by rw [hA]
      _ = A + (Y' + O) := by abel
      _ = A + (Y + E) := by rw [hY]
      _ = (A + E) + Y := by abel
  have h3 : A' + O = A + E := add_right_cancel h2
  calc A' + S + O = (A' + O) + S := by abel
    _ = (A + E) + S := by rw [h3]
    _ = A + S + E := by abel

theorem items_set_level {t t' : FunnelHashTable} {n idx : Nat} {e : Entry}
    (hn : n < t.levels.length) (hidx : idx < (t.levels.getD n []).length)
    (hlv : t'.levels = t.levels.set n ((t.levels.getD n []).set idx e))
    (hsp : t'.special_array = t.special_array) :
    (↑t'.items : Multiset (Nat × Nat)) + ↑(occPair (getEnt (t.levels.getD n []) idx)).toList
      = ↑t.items + ↑(occPair e).toList := by
  unfold FunnelHashTable.items
  rw [hlv, hsp, List.map_set, ← Multiset.coe_add, ← Multiset.coe_add]
  have hA := flatten_set_multiset (t.levels.map (fun l => l.filterMap occPair)) n
    (by simpa using hn) (((t.levels.getD n []).set idx e).filterMap occPair)
  rw [getD_map_filterMap hn] at hA
  have hY := filterMap_set_multiset occPair (t.levels.getD n []) idx hidx e
  exact multiset_rearrange hA hY

theorem items_set_special {t t' : FunnelHashTable} {idx : Nat} {e : Entry}
    (hidx : idx < t.special_array.length)
    (hlv : t'.levels = t.levels)
    (hsp : t'.special_array = t.special_array.set idx e) :
    (↑t'.items : Multiset (Nat × Nat)) + ↑(occPair (getEnt t.special_array idx)).toList
      = ↑t.items + ↑(occPair e).toList := by
  unfold FunnelHashTable.items
  rw [hlv, hsp, ← Multiset.coe_add, ← Multiset.coe_add]
  have hY := filterMap_set_multiset occPair t.special_array idx hidx e
  calc (↑(t.levels.map (fun l => l.filterMap occPair)).flatten : Multiset (Nat × Nat))
        + ↑((t.special_array.set idx e).filterMap occPair)
        + ↑(occPair (getEnt t.special_array idx)).toList
      = ↑(t.levels.map (fun l => l.filterMap occPair)).flatten
        + (↑((t.special_array.set idx e).filterMap occPair)
          + ↑(occPair (getEnt t.special_array idx)).toList) := by abel
    _ = ↑(t.levels.map (fun l => l.filterMap occPair)).flatten
        + (↑(t.special_array.filterMap occPair) + ↑(occPair e).toList) := by rw [hY]
    _ = ↑(t.levels.map (fun l => l.filterMap occPair)).flatten
        + ↑(t.special_array.filterMap occPair) + ↑(occPair e).toList := by abel

theorem delLevels_spec {h : Nat → Nat} {beta k : Nat} :
    ∀ {ls : List (List Entry)} {cs ss : List Nat} {ls' : List (List Entry)},
      delLevels h beta k ls cs ss = some ls' →
      ∃ n idx, n < ls.length ∧ matchP k (getEnt (ls.getD n []) idx) = true ∧
        ls' = ls.set n ((ls.getD n []).set idx Entry.empty) := by
  intro ls
  induction ls with
  | nil => intro cs ss ls' hdel; cases hdel
  | cons level ls ih =>
    intro cs ss ls' hdel
    cases cs with
    | nil => cases hdel
    | cons count cs =>
      cases ss with
      | nil => cases hdel
      | cons salt ss =>
        rw [delLevels] at hdel
        cases hscan : scanBucket (matchP k) level (fhash h k salt % count * beta) beta with
        | some idx =>
          rw [hscan] at hdel
          cases hdel
          obtain ⟨j, hj, hr, hm, _⟩ := scanBucket_eq_some hscan
          exact ⟨0, idx, Nat.succ_pos _, hm, rfl⟩
        | none =>
          rw [hscan] at hdel
          cases htail : delLevels h beta k ls cs ss with
          | none => rw [htail] at hdel; cases hdel
          | some ls2 =>
            rw [htail] at hdel
            simp only [Option.map_some'] at hdel
            cases hdel
            obtain ⟨n, idx, hn, hm, hset⟩ := ih htail
            refine ⟨n + 1, idx, by simpa using Nat.succ_lt_succ hn, hm, ?_⟩
            rw [hset]
            rfl

theorem delitem_occEntries {t t' : FunnelHashTable} {h : Nat → Nat} {k : Nat}
    (hdel : t.delitem h k = some t') :
    ∃ v, (↑t'.items : Multiset (Nat × Nat)) + {(k, v)} = ↑t.items ∧
      t'.num_inserts = t.num_inserts - 1 := by
  unfold FunnelHashTable.delitem at hdel
  cases hdl : delLevels h t.beta k t.levels t.level_bucket_counts t.level_salts with
  | some ls =>
    rw [hdl] at hdel
    cases hdel
    obtain ⟨n, idx, hn, hm, hset⟩ := delLevels_spec hdl
    have hidx : idx < (t.levels.getD n []).length := matchP_getEnt_lt hm
    have hitems := @items_set_level t
      { t with levels := ls, num_inserts := t.num_inserts - 1 } n idx Entry.empty
      hn hidx (by dsimp only; rw [hset]) rfl
    rw [matchP_true_iff] at hm
    refine ⟨(getEnt (t.levels.getD n []) idx).value, ?_, rfl⟩
    have hop : occPair (getEnt (t.levels.getD n []) idx)
        = some (k, (getEnt (t.levels.getD n []) idx).value) := by
      unfold occPair
      rw [if_pos hm.1, hm.2]
    rw [hop] at hitems
    have hoe : occPair Entry.empty = none := rfl
    rw [hoe] at hitems
    simpa [Multiset.coe_singleton] using hitems
  | none =>
    rw [hdl] at hdel
    cases hpr : probeSpec (matchP k) t.special_array (fhash h k t.special_salt) 0
        t.probe_limit with
    | none => rw [hpr] at hdel; cases hdel
    | some idx =>
      rw [hpr] at hdel
      cases hdel
      obtain ⟨i, _, _, hr, hm, _⟩ := probeSpec_eq_some hpr
      have hidx : idx < t.special_array.length := matchP_getEnt_lt hm
      have hitems := @items_set_special t
        { t with
          special_array := t.special_array.set idx Entry.empty
          special_occupancy := t.special_occupancy - 1
          num_inserts := t.num_inserts - 1 } idx Entry.empty hidx rfl rfl
      rw [matchP_true_iff] at hm
      refine ⟨(getEnt t.special_array idx).value, ?_, rfl⟩
      have hop : occPair (getEnt t.special_array idx)
          = some (k, (getEnt t.special_array idx).value) := by
        unfold occPair
        rw [if_pos hm.1, hm.2]
      rw [hop] at hitems
      have hoe : occPair Entry.empty = none := rfl
      rw [hoe] at hitems
      simpa [Multiset.coe_singleton] using hitems

theorem delitem_occKeys {t t' : FunnelHashTable} {h : Nat → Nat} {k : Nat}
    (hdel : t.delitem h k = some t') :
    (↑t'.keys : Multiset Nat) + {k} = ↑t.keys := by
  obtain ⟨v, hent, _⟩ := delitem_occEntries hdel
  have hmap := congrArg (Multiset.map Prod.fst) hent
  rw [Multiset.map_add, Multiset.map_coe, Multiset.map_singleton] at hmap
  unfold FunnelHashTable.keys
  rw [← Multiset.map_coe]
  simpa using hmap

theorem delitem_countKey {t t' : FunnelHashTable} {h : Nat → Nat} {k : Nat}
    (hdel : t.delitem h k = some t') : countKey t' k + 1 = countKey t k := by
  have hk := delitem_occKeys hdel
  have hc := congrArg (Multiset.count k) hk
  rw [Multiset.count_add, Multiset.count_singleton, if_pos rfl,
    Multiset.coe_count, Multiset.coe_count] at hc
  unfold countKey
  exact hc

theorem mem_keys_of_matchP_level {t : FunnelHashTable} {l : List Entry} (hl : l ∈ t.levels)
    {i k : Nat} (hm : matchP k (getEnt l i) = true) : k ∈ t.keys := by
  have hi : i < l.length := matchP_getEnt_lt hm
  rw [matchP_true_iff] at hm
  unfold FunnelHashTable.keys FunnelHashTable.items
  rw [List.map_append]
  apply List.mem_append_left
  rw [List.mem_map]
  refine ⟨((getEnt l i).key, (getEnt l i).value), ?_, hm.2⟩
  rw [List.mem_flatten]
  refine ⟨l.filterMap occPair, List.mem_map_of_mem _ hl, ?_⟩
  rw [List.mem_filterMap]
  refine ⟨getEnt l i, ?_, ?_⟩
  · rw [getEnt_of_lt hi]
    exact List.getElem_mem hi
  · unfold occPair
    rw [if_pos hm.1]

theorem mem_keys_of_matchP_special {t : FunnelHashTable} {i k : Nat}
    (hm : matchP k (getEnt t.special_array i) = true) : k ∈ t.keys := by
  have hi : i < t.special_array.length := matchP_getEnt_lt hm
  rw [matchP_true_iff] at hm
  unfold FunnelHashTable.keys FunnelHashTable.items
  rw [List.map_append]
  apply List.mem_append_right
  rw [List.mem_map]
  refine ⟨((getEnt t.special_array i).key, (getEnt t.special_array i).value), ?_, hm.2⟩
  rw [List.mem_filterMap]
  refine ⟨getEnt t.special_array i, ?_, ?_⟩
  · rw [getEnt_of_lt hi]
    exact List.getElem_mem hi
  · unfold occPair
    rw [if_pos hm.1]

theorem getLevels_none_of_no_match {h : Nat → Nat} {beta k : Nat} :
    ∀ {ls : List (List Entry)} {cs ss : List Nat},
      (∀ l ∈ ls, ∀ i, matchP k (getEnt l i) = false) →
      getLevels h beta k ls cs ss = none := by
  intro ls
  induction ls with
  | nil => intro cs ss _; rfl
  | cons level ls ih =>
    intro cs ss hno
    cases cs with
    | nil => rfl
    | cons count cs =>
      cases ss with
      | nil => rfl
      | cons salt ss =>
        rw [getLevels]
        have hscan : scanBucket (matchP k) level (fhash h k salt % count * beta) beta
            = none := by
          rw [scanBucket_none_iff]
          intro j _
          exact hno level (List.mem_cons_self level ls) _
        rw [hscan]
        exact ih (fun l hl i => hno l (List.mem_cons_of_mem level hl) i)

theorem get?_eq_none_of_not_mem_keys {t : FunnelHashTable} {h : Nat → Nat} {k : Nat}
    (hk : k ∉ t.keys) : t.get? h k = none := by
  unfold FunnelHashTable.get?
  have hl : getLevels h t.beta k t.levels t.level_bucket_counts t.level_salts = none := by
    apply getLevels_none_of_no_match
    intro l hl i
    by_contra hm
    exact hk (mem_keys_of_matchP_level hl ((Bool.not_eq_false _).mp hm))
  have hs : probeSpec (matchP k) t.special_array (fhash h k t.special_salt) 0
      t.probe_limit = none := by
    rw [probeSpec_none_iff]
    intro i _ _
    by_contra hm
    exact hk (mem_keys_of_matchP_special ((Bool.not_eq_false _).mp hm))
  rw [hl, hs]

/-- C3 (amended): if `delete(k)` succeeds on a table in which key `k`
occupies at most one slot, then immediately afterwards `get(k)` signals
key-not-found and `k in table` is false.  The at-most-one-slot hypothesis is
forced by the counterexample: a delete can free a slot on `k`'s probe path,
after which re-inserting `k` leaves two occupied slots for `k`, and then a
successful `delete(k)` removes only the first copy. -/
theorem C3_delete_then_absent {t t' : FunnelHashTable} {h : Nat → Nat} {k : Nat}
    (hck : countKey t k ≤ 1) (hdel : t.delitem h k = some t') :
    t'.get? h k = none ∧ t'.contains h k = false := by
  have hc := delitem_countKey hdel
  have h0 : countKey t' k = 0 := by omega
  have hg : t'.get? h k = none := by
    apply get?_eq_none_of_not_mem_keys
    intro hmem
    have := List.count_pos_iff.mpr hmem
    unfold countKey at h0
    omega
  refine ⟨hg, ?_⟩
  unfold FunnelHashTable.contains
  rw [hg]
  rfl

theorem C3_witness :
    countKey t1c 0 ≤ 1 ∧ t1c.delitem hid 0 = some t1cDel ∧
      t1cDel.get? hid 0 = none ∧ t1cDel.contains hid 0 = false := by
  have hmain := @C3_delete_then_absent t1c t1cDel hid 0 (by decide) (by decide)
  exact ⟨by decide, by decide, hmain.1, hmain.2⟩

theorem insertList_frame {h : Nat → Nat} {k : Nat} :
    ∀ {L : List (Nat × Nat)} {t0 t : FunnelHashTable}, insertList h L t0 = some t →
      (∀ p ∈ L, p.1 ≠ k) → t.get? h k = t0.get? h k := by
  intro L
  induction L with
  | nil => intro t0 t hins _; cases hins; rfl
  | cons q ps ih =>
    intro t0 t hins hne
    obtain ⟨k', v'⟩ := q
    rw [insertList] at hins
    cases hok : t0.insert h k' v' with
    | error e => rw [hok] at hins; cases hins
    | ok t1 =>
      rw [hok] at hins
      rw [ih hins (fun p hp => hne p (List.mem_cons_of_mem _ hp))]
      exact insert_frame (hne (k', v') (List.mem_cons_self _ _)) hok

theorem insertList_get {h : Nat → Nat} :
    ∀ {L : List (Nat × Nat)} {t0 t : FunnelHashTable}, t0.WF = true →
      (L.map Prod.fst).Nodup → insertList h L t0 = some t →
      ∀ p ∈ L, t.get? h p.1 = some p.2 := by
  intro L
  induction L with
  | nil => intro t0 t _ _ _ p hp; cases hp
  | cons q ps ih =>
    intro t0 t hwf hnodup hins p hp
    obtain ⟨k, v⟩ := q
    rw [insertList] at hins
    cases hok : t0.insert h k v with
    | error e => rw [hok] at hins; cases hins
    | ok t1 =>
      rw [hok] at hins
      rw [List.map_cons, List.nodup_cons] at hnodup
      rcases List.mem_cons.mp hp with hq | hps
      · cases hq
        rw [insertList_frame hins ?_]
        · exact insert_get hwf hok
        · intro p' hp' hEq
          exact hnodup.1 (hEq ▸ List.mem_map_of_mem Prod.fst hp')
      · exact ih (insert_wf hwf hok) hnodup.2 hins p hps

theorem insertLevels_spec {h : Nat → Nat} {beta k v : Nat} :
    ∀ {ls : List (List Entry)} {cs ss : List Nat} {ls' : List (List Entry)},
      levelsWF beta ls cs ss = true →
      insertLevels h beta k v ls cs ss = some ls' →
      ∃ n idx, n < ls.length ∧ idx < (ls.getD n []).length ∧
        insP k (getEnt (ls.getD n []) idx) = true ∧
        ls' = ls.set n ((ls.getD n []).set idx ⟨k, v, true⟩) := by
  intro ls
  induction ls with
  | nil => intro cs ss ls' _ hins; cases hins
  | cons level ls ih =>
    intro cs ss ls' hwf hins
    cases cs with
    | nil => cases hwf
    | cons count cs =>
      cases ss with
      | nil => cases hwf
      | cons salt ss =>
        rw [levelsWF] at hwf
        simp only [Bool.and_eq_true, decide_eq_true_eq] at hwf
        obtain ⟨⟨hc, hlen⟩, hwftail⟩ := hwf
        rw [insertLevels] at hins
        cases hscan : scanBucket (insP k) level (fhash h k salt % count * beta) beta with
        | some idx =>
          rw [hscan] at hins
          cases hins
          obtain ⟨j, hj, hr, hp, _⟩ := scanBucket_eq_some hscan
          have hblt : fhash h k salt % count < count := Nat.mod_lt _ (by omega)
          have hidx : idx < level.length := by
            rw [hr]
            exact window_lt hlen hblt hj
          exact ⟨0, idx, Nat.succ_pos _, hidx, hp, rfl⟩
        | none =>
          rw [hscan] at hins
          cases htail : insertLevels h beta k v ls cs ss with
          | none => rw [htail] at hins; cases hins
          | some ls2 =>
            rw [htail] at hins
            simp only [Option.map_some'] at hins
            cases hins
            obtain ⟨n, idx, hn, hidx, hp, hset⟩ := ih hwftail htail
            refine ⟨n + 1, idx, by simpa using Nat.succ_lt_succ hn, hidx, hp, ?_⟩
            rw [hset]
            rfl

theorem getD_mem_levels {t : FunnelHashTable} {n : Nat} (hn : n < t.levels.length) :
    t.levels.getD n [] ∈ t.levels := by
  rw [List.getD_eq_getElem?_getD, List.getElem?_eq_getElem hn]
  exact List.getElem_mem hn

theorem insert_occEntries_of_absent {t t' : FunnelHashTable} {h : Nat → Nat} {k v : Nat}
    (hwf : t.WF = true) (habs : k ∉ t.keys) (hok : t.insert h k v = .ok t') :
    (↑t'.items : Multiset (Nat × Nat)) = ↑t.items + {(k, v)} ∧
      t'.num_inserts = t.num_inserts + 1 := by
  obtain ⟨hbeta, hpl, hsl, hwl⟩ := wf_parts hwf
  unfold FunnelHashTable.insert at hok
  by_cases hfull : (t.max_inserts : Int) ≤ t.num_inserts
  · rw [if_pos hfull] at hok; cases hok
  · rw [if_neg hfull] at hok
    cases hins : insertLevels h t.beta k v t.levels t.level_bucket_counts t.level_salts with
    | some ls =>
      rw [hins] at hok
      cases hok
      obtain ⟨n, idx, hn, hidx, hp, hset⟩ := insertLevels_spec hwl hins
      have hunocc : (getEnt (t.levels.getD n []) idx).occupied = false := by
        by_contra hocc
        rw [Bool.not_eq_false] at hocc
        have hkey : (getEnt (t.levels.getD n []) idx).key = k := by
          unfold insP at hp
          simp only [hocc, Bool.not_true, Bool.false_or, beq_iff_eq] at hp
          exact hp
        exact habs (mem_keys_of_matchP_level (getD_mem_levels hn)
          (matchP_true_iff.mpr ⟨hocc, hkey⟩))
      have hitems := @items_set_level t
        { t with levels := ls, num_inserts := t.num_inserts + 1 } n idx ⟨k, v, true⟩
        hn hidx (by dsimp only; rw [hset]) rfl
      have hop : occPair (getEnt (t.levels.getD n []) idx) = none := by
        unfold occPair
        rw [if_neg (by rw [hunocc]; exact Bool.false_ne_true)]
      have hoe : occPair (⟨k, v, true⟩ : Entry) = some (k, v) := rfl
      rw [hop, hoe] at hitems
      refine ⟨?_, rfl⟩
      simpa [Multiset.coe_singleton] using hitems
    | none =>
      rw [hins] at hok
      cases hpr : probeSpec (insP k) t.special_array (fhash h k t.special_salt) 0
          t.probe_limit with
      | none => rw [hpr] at hok; cases hok
      | some idx =>
        rw [hpr] at hok
        cases hok
        obtain ⟨i, _, _, hr, hp, _⟩ := probeSpec_eq_some hpr
        have hidx : idx < t.special_array.length := by
          rw [hr]
          exact Nat.mod_lt _ (by omega)
        have hunocc : (getEnt t.special_array idx).occupied = false := by
          by_contra hocc
          rw [Bool.not_eq_false] at hocc
          have hkey : (getEnt t.special_array idx).key = k := by
            unfold insP at hp
            simp only [hocc, Bool.not_true, Bool.false_or, beq_iff_eq] at hp
            exact hp
          exact habs (mem_keys_of_matchP_special (matchP_true_iff.mpr ⟨hocc, hkey⟩))
        have hitems := @items_set_special t
          { t with
            special_array := t.special_array.set idx ⟨k, v, true⟩
            special_occupancy := t.special_occupancy + 1
            num_inserts := t.num_inserts + 1 } idx ⟨k, v, true⟩ hidx rfl rfl
        have hop : occPair (getEnt t.special_array idx) = none := by
          unfold occPair
          rw [if_neg (by rw [hunocc]; exact Bool.false_ne_true)]
        have hoe : occPair (⟨k, v, true⟩ : Entry) = some (k, v) := rfl
        rw [hop, hoe] at hitems
        refine ⟨?_, rfl⟩
        simpa [Multiset.coe_singleton] using hitems

theorem items_eq_nil_of_fresh {t : FunnelHashTable} (hf : t.Fresh = true) : t.items = [] := by
  unfold FunnelHashTable.Fresh at hf
  simp only [Bool.and_eq_true, List.all_eq_true, Bool.not_eq_eq_eq_not, Bool.not_true] at hf
  obtain ⟨⟨⟨hlv, hsp⟩, _⟩, _⟩ := hf
  unfold FunnelHashTable.items
  have h1 : (t.levels.map fun level => level.filterMap occPair).flatten = [] := by
    rw [List.flatten_eq_nil_iff]
    intro x hx
    rw [List.mem_map] at hx
    obtain ⟨l, hl, hfx⟩ := hx
    rw [← hfx, List.filterMap_eq_nil_iff]
    intro e he
    unfold occPair
    rw [if_neg (by rw [hlv l hl e he]; exact Bool.false_ne_true)]
  have h2 : t.special_array.filterMap occPair = [] := by
    rw [List.filterMap_eq_nil_iff]
    intro e he
    unfold occPair
    rw [if_neg (by rw [hsp e he]; exact Bool.false_ne_true)]
  rw [h1, h2]
  rfl

theorem insertList_items {h : Nat → Nat} :
    ∀ {L : List (Nat × Nat)} {t0 t : FunnelHashTable}, t0.WF = true →
      (∀ p ∈ L, p.1 ∉ t0.keys) → (L.map Prod.fst).Nodup →
      insertList h L t0 = some t →
      (↑t.items : Multiset (Nat × Nat)) = ↑t0.items + ↑L := by
  intro L
  induction L with
  | nil =>
    intro t0 t _ _ _ hins
    cases hins
    simp
  | cons q ps ih =>
    intro t0 t hwf habs hnodup hins
    obtain ⟨k, v⟩ := q
    rw [insertList] at hins
    cases hok : t0.insert h k v with
    | error e => rw [hok] at hins; cases hins
    | ok t1 =>
      rw [hok] at hins
      rw [List.map_cons, List.nodup_cons] at hnodup
      have hkabs : k ∉ t0.keys := habs (k, v) (List.mem_cons_self _ _)
      obtain ⟨hitems1, _⟩ := insert_occEntries_of_absent hwf hkabs hok
      have hkeys1 : (↑t1.keys : Multiset Nat) = ↑t0.keys + {k} := by
        unfold FunnelHashTable.keys
        rw [← Multiset.map_coe, ← Multiset.map_coe, hitems1, Multiset.map_add,
          Multiset.map_singleton]
      have habs1 : ∀ p ∈ ps, p.1 ∉ t1.keys := by
        intro p hp hmem
        have hmem' : p.1 ∈ (↑t1.keys : Multiset Nat) := by
          rwa [Multiset.mem_coe]
        rw [hkeys1, Multiset.mem_add] at hmem'
        rcases hmem' with hm0 | hmk
        · exact habs p (List.mem_cons_of_mem _ hp) (Multiset.mem_coe.mp hm0)
        · rw [Multiset.mem_singleton] at hmk
          have hpm : p.1 ∈ ps.map Prod.fst := List.mem_map_of_mem Prod.fst hp
          rw [hmk] at hpm
          exact hnodup.1 hpm
      have hrec := ih (insert_wf hwf hok) habs1 hnodup.2 hins
      rw [hrec, hitems1]
      rw [← Multiset.cons_coe, ← Multiset.singleton_add]
      abel

/-- C7: inserting the same list `L` of pairs with pairwise-distinct keys
into a fresh well-formed table in any order `L'` (all inserts succeeding)
recovers exactly those pairs: every key of `L` reads back its value of `L`,
and a full iteration returns a permutation of `L` — independent of the
insertion order. -/
theorem C7_round_trip {t0 t : FunnelHashTable} {h : Nat → Nat}
    {L L' : List (Nat × Nat)} (hwf : t0.WF = true) (hfresh : t0.Fresh = true)
    (hnodup : (L.map Prod.fst).Nodup) (hperm : L'.Perm L)
    (hins : insertList h L' t0 = some t) :
    (∀ p ∈ L, t.get? h p.1 = some p.2) ∧ t.items.Perm L := by
  have hnodup' : (L'.map Prod.fst).Nodup := (hperm.map Prod.fst).symm.nodup hnodup
  constructor
  · intro p hp
    exact insertList_get hwf hnodup' hins p (hperm.symm.subset hp)
  · have hnil := items_eq_nil_of_fresh hfresh
    have habs : ∀ p ∈ L', p.1 ∉ t0.keys := by
      intro p _ hmem
      unfold FunnelHashTable.keys at hmem
      rw [hnil] at hmem
      cases hmem
    have := insertList_items hwf habs hnodup' hins
    rw [hnil] at this
    have hcoe : (↑t.items : Multiset (Nat × Nat)) = ↑L' := by
      simpa using this
    exact (Multiset.coe_eq_coe.mp hcoe).trans hperm

theorem C7_witness :
    t0c.WF = true ∧ t0c.Fresh = true ∧
      (([(1, 11), (0, 22)] : List (Nat × Nat)).map Prod.fst).Nodup ∧
      ([(0, 22), (1, 11)] : List (Nat × Nat)).Perm [(1, 11), (0, 22)] ∧
      insertList hid [(0, 22), (1, 11)] t0c
        = some (applyOps hid t0c [Op.ins 0 22, Op.ins 1 11]) ∧
      (∀ p ∈ ([(1, 11), (0, 22)] : List (Nat × Nat)),
        (applyOps hid t0c [Op.ins 0 22, Op.ins 1 11]).get? hid p.1 = some p.2) ∧
      (applyOps hid t0c [Op.ins 0 22, Op.ins 1 11]).items.Perm [(1, 11), (0, 22)] := by
  have hperm : ([(0, 22), (1, 11)] : List (Nat × Nat)).Perm [(1, 11), (0, 22)] :=
    List.Perm.swap _ _ _
  have hmain := @C7_round_trip t0c (applyOps hid t0c [Op.ins 0 22, Op.ins 1 11]) hid
    [(1, 11), (0, 22)] [(0, 22), (1, 11)] (by decide) (by decide) (by decide) hperm rfl
  exact ⟨by decide, by decide, by decide, hperm, rfl, hmain.1, hmain.2⟩

theorem levelCoherent_iff {h : Nat → Nat} {beta count salt : Nat} {level : List Entry} :
    levelCoherent h beta count salt level = true ↔
      ∀ idx, idx < level.length → (getEnt level idx).occupied = true →
        fhash h (getEnt level idx).key salt % count * beta ≤ idx ∧
          idx < fhash h (getEnt level idx).key salt % count * beta + beta := by
  unfold levelCoherent
  rw [List.all_eq_true]
  constructor
  · intro hall idx hidx hocc
    have := hall idx (List.mem_range.mpr hidx)
    simp only [hocc, Bool.not_true, Bool.false_or, Bool.and_eq_true, decide_eq_true_eq]
      at this
    exact this
  · intro hall idx hidx
    rw [List.mem_range] at hidx
    by_cases hocc : (getEnt level idx).occupied = true
    · obtain ⟨h1, h2⟩ := hall idx hidx hocc
      simp [hocc, h1, h2]
    · rw [Bool.not_eq_true] at hocc
      simp [hocc]

theorem specialCoherent_iff {h : Nat → Nat} {probe ssalt : Nat} {arr : List Entry} :
    specialCoherent h probe ssalt arr = true ↔
      ∀ idx, idx < arr.length → (getEnt arr idx).occupied = true →
        ∃ j, j < probe ∧ idx = (fhash h (getEnt arr idx).key ssalt + j) % arr.length := by
  unfold specialCoherent
  rw [List.all_eq_true]
  constructor
  · intro hall idx hidx hocc
    have := hall idx (List.mem_range.mpr hidx)
    simp only [hocc, Bool.not_true, Bool.false_or, List.any_eq_true, List.mem_range,
      decide_eq_true_eq] at this
    obtain ⟨j, hj, hje⟩ := this
    exact ⟨j, hj, hje⟩
  · intro hall idx hidx
    rw [List.mem_range] at hidx
    by_cases hocc : (getEnt arr idx).occupied = true
    · obtain ⟨j, hj, hje⟩ := hall idx hidx hocc
      simp only [hocc, Bool.not_true, Bool.false_or, List.any_eq_true, List.mem_range,
        decide_eq_true_eq]
      exact ⟨j, hj, hje⟩
    · rw [Bool.not_eq_true] at hocc
      simp [hocc]

theorem levelCoherent_set_empty {h : Nat → Nat} {beta count salt : Nat}
    {level : List Entry} {idx : Nat}
    (hc : levelCoherent h beta count salt level = true) :
    levelCoherent h beta count salt (level.set idx Entry.empty) = true := by
  rw [levelCoherent_iff] at hc ⊢
  intro i hi hocc
  rw [List.length_set] at hi
  by_cases hieq : i = idx
  · subst hieq
    rw [getEnt_set_self _ hi] at hocc
    cases hocc
  · rw [getEnt_set_ne _ hieq] at hocc ⊢
    exact hc i hi hocc

theorem levelCoherent_set_inwindow {h : Nat → Nat} {beta count salt : Nat}
    {level : List Entry} {idx k v : Nat}
    (hc : levelCoherent h beta count salt level = true)
    (h1 : fhash h k salt % count * beta ≤ idx)
    (h2 : idx < fhash h k salt % count * beta + beta) :
    levelCoherent h beta count salt (level.set idx ⟨k, v, true⟩) = true := by
  rw [levelCoherent_iff] at hc ⊢
  intro i hi hocc
  rw [List.length_set] at hi
  by_cases hieq : i = idx
  · subst hieq
    rw [getEnt_set_self _ hi]
    exact ⟨h1, h2⟩
  · rw [getEnt_set_ne _ hieq] at hocc ⊢
    exact hc i hi hocc

theorem specialCoherent_set_empty {h : Nat → Nat} {probe ssalt : Nat}
    {arr : List Entry} {idx : Nat}
    (hc : specialCoherent h probe ssalt arr = true) :
    specialCoherent h probe ssalt (arr.set idx Entry.empty) = true := by
  rw [specialCoherent_iff] at hc ⊢
  intro i hi hocc
  rw [List.length_set] at hi ⊢
  by_cases hieq : i = idx
  · subst hieq
    rw [getEnt_set_self _ hi] at hocc
    cases hocc
  · rw [getEnt_set_ne _ hieq] at hocc ⊢
    exact hc i hi hocc

theorem specialCoherent_set_inwindow {h : Nat → Nat} {probe ssalt : Nat}
    {arr : List Entry} {idx k v i : Nat}
    (hc : specialCoherent h probe ssalt arr = true) (hi : i < probe)
    (hidx : idx = (fhash h k ssalt + i) % arr.length) :
    specialCoherent h probe ssalt (arr.set idx ⟨k, v, true⟩) = true := by
  rw [specialCoherent_iff] at hc ⊢
  intro i' hi' hocc
  rw [List.length_set] at hi' ⊢
  by_cases hieq : i' = idx
  · subst hieq
    rw [getEnt_set_self _ hi']
    exact ⟨i, hi, hidx⟩
  · rw [getEnt_set_ne _ hieq] at hocc ⊢
    exact hc i' hi' hocc

theorem levelsCoherent_set_empty {h : Nat → Nat} {beta : Nat} :
    ∀ {ls : List (List Entry)} {cs ss : List Nat} {n idx : Nat},
      levelsCoherent h beta ls cs ss = true →
      levelsCoherent h beta (ls.set n ((ls.getD n []).set idx Entry.empty)) cs ss = true := by
  intro ls
  induction ls with
  | nil => intro cs ss n idx _; rfl
  | cons level ls ih =>
    intro cs ss n idx hc
    cases n with
    | zero =>
      rw [List.set_cons_zero]
      cases cs with
      | nil => rfl
      | cons count cs =>
        cases ss with
        | nil => rfl
        | cons salt ss =>
          rw [levelsCoherent, Bool.and_eq_true] at hc
          rw [levelsCoherent, Bool.and_eq_true]
          exact ⟨levelCoherent_set_empty hc.1, hc.2⟩
    | succ n' =>
      rw [List.set_cons_succ]
      cases cs with
      | nil => rfl
      | cons count cs =>
        cases ss with
        | nil => rfl
        | cons salt ss =>
          rw [levelsCoherent, Bool.and_eq_true] at hc
          rw [levelsCoherent, Bool.and_eq_true]
          exact ⟨hc.1, ih hc.2⟩

theorem delitem_coherent {t t' : FunnelHashTable} {h : Nat → Nat} {k : Nat}
    (hcoh : t.Coherent h = true) (hdel : t.delitem h k = some t') :
    t'.Coherent h = true := by
  rw [FunnelHashTable.Coherent, Bool.and_eq_true] at hcoh
  unfold FunnelHashTable.delitem at hdel
  cases hdl : delLevels h t.beta k t.levels t.level_bucket_counts t.level_salts with
  | some ls =>
    rw [hdl] at hdel
    cases hdel
    obtain ⟨n, idx, hn, hm, hset⟩ := delLevels_spec hdl
    rw [FunnelHashTable.Coherent, Bool.and_eq_true]
    refine ⟨?_, hcoh.2⟩
    dsimp only
    rw [hset]
    exact levelsCoherent_set_empty hcoh.1
  | none =>
    rw [hdl] at hdel
    cases hpr : probeSpec (matchP k) t.special_array (fhash h k t.special_salt) 0
        t.probe_limit with
    | none => rw [hpr] at hdel; cases hdel
    | some idx =>
      rw [hpr] at hdel
      cases hdel
      rw [FunnelHashTable.Coherent, Bool.and_eq_true]
      exact ⟨hcoh.1, specialCoherent_set_empty hcoh.2⟩

theorem insertLevels_coherent {h : Nat → Nat} {beta k v : Nat} :
    ∀ {ls : List (List Entry)} {cs ss : List Nat} {ls' : List (List Entry)},
      insertLevels h beta k v ls cs ss = some ls' →
      levelsCoherent h beta ls cs ss = true → levelsCoherent h beta ls' cs ss = true := by
  intro ls
  induction ls with
  | nil => intro cs ss ls' hins _; cases hins
  | cons level ls ih =>
    intro cs ss ls' hins hc
    cases cs with
    | nil => cases hins
    | cons count cs =>
      cases ss with
      | nil => cases hins
      | cons salt ss =>
        rw [levelsCoherent, Bool.and_eq_true] at hc
        rw [insertLevels] at hins
        cases hscan : scanBucket (insP k) level (fhash h k salt % count * beta) beta with
        | some idx =>
          rw [hscan] at hins
          cases hins
          obtain ⟨j, hj, hr, _, _⟩ := scanBucket_eq_some hscan
          rw [levelsCoherent, Bool.and_eq_true]
          exact ⟨levelCoherent_set_inwindow hc.1 (by omega) (by omega), hc.2⟩
        | none =>
          rw [hscan] at hins
          cases htail : insertLevels h beta k v ls cs ss with
          | none => rw [htail] at hins; cases hins
          | some ls2 =>
            rw [htail] at hins
            simp only [Option.map_some'] at hins
            cases hins
            rw [levelsCoherent, Bool.and_eq_true]
            exact ⟨hc.1, ih htail hc.2⟩

theorem insert_coherent {t t' : FunnelHashTable} {h : Nat → Nat} {k v : Nat}
    (hcoh : t.Coherent h = true) (hok : t.insert h k v = .ok t') :
    t'.Coherent h = true := by
  rw [FunnelHashTable.Coherent, Bool.and_eq_true] at hcoh
  unfold FunnelHashTable.insert at hok
  by_cases hfull : (t.max_inserts : Int) ≤ t.num_inserts
  · rw [if_pos hfull] at hok; cases hok
  · rw [if_neg hfull] at hok
    cases hins : insertLevels h t.beta k v t.levels t.level_bucket_counts t.level_salts with
    | some ls =>
      rw [hins] at hok
      cases hok
      rw [FunnelHashTable.Coherent, Bool.and_eq_true]
      dsimp only
      exact ⟨insertLevels_coherent hins hcoh.1, hcoh.2⟩
    | none =>
      rw [hins] at hok
      cases hpr : probeSpec (insP k) t.special_array (fhash h k t.special_salt) 0
          t.probe_limit with
      | none => rw [hpr] at hok; cases hok
      | some idx =>
        rw [hpr] at hok
        cases hok
        obtain ⟨i, _, hilt, hr, _, _⟩ := probeSpec_eq_some hpr
        rw [FunnelHashTable.Coherent, Bool.and_eq_true]
        dsimp only
        exact ⟨hcoh.1, specialCoherent_set_inwindow hcoh.2 (by omega) hr⟩

theorem mem_keys_cases {t : FunnelHashTable} {k : Nat} (hk : k ∈ t.keys) :
    (∃ n idx, n < t.levels.length ∧ matchP k (getEnt (t.levels.getD n []) idx) = true) ∨
      (∃ idx, matchP k (getEnt t.special_array idx) = true) := by
  unfold FunnelHashTable.keys FunnelHashTable.items at hk
  rw [List.map_append, List.mem_append] at hk
  rcases hk with hk | hk
  · left
    rw [List.mem_map] at hk
    obtain ⟨p, hpmem, hpk⟩ := hk
    rw [List.mem_flatten] at hpmem
    obtain ⟨x, hxmem, hpx⟩ := hpmem
    rw [List.mem_map] at hxmem
    obtain ⟨l, hlmem, hlx⟩ := hxmem
    rw [← hlx, List.mem_filterMap] at hpx
    obtain ⟨e, heme, hoe⟩ := hpx
    obtain ⟨n, hn, hln⟩ := List.getElem_of_mem hlmem
    obtain ⟨idx, hidx, hei⟩ := List.getElem_of_mem heme
    refine ⟨n, idx, hn, ?_⟩
    have hgl : t.levels.getD n [] = l := by
      rw [List.getD_eq_getElem?_getD, List.getElem?_eq_getElem hn]
      exact hln
    rw [hgl, getEnt_of_lt hidx, hei]
    unfold occPair at hoe
    by_cases hocc : e.occupied = true
    · rw [if_pos hocc] at hoe
      rw [matchP_true_iff]
      refine ⟨hocc, ?_⟩
      have h1 := Option.some.inj hoe
      rw [← hpk, ← h1]
    · rw [if_neg hocc] at hoe
      cases hoe
  · right
    rw [List.mem_map] at hk
    obtain ⟨p, hpmem, hpk⟩ := hk
    rw [List.mem_filterMap] at hpmem
    obtain ⟨e, heme, hoe⟩ := hpmem
    obtain ⟨idx, hidx, hei⟩ := List.getElem_of_mem heme
    refine ⟨idx, ?_⟩
    rw [getEnt_of_lt hidx, hei]
    unfold occPair at hoe
    by_cases hocc : e.occupied = true
    · rw [if_pos hocc] at hoe
      rw [matchP_true_iff]
      refine ⟨hocc, ?_⟩
      have h1 := Option.some.inj hoe
      rw [← hpk, ← h1]
    · rw [if_neg hocc] at hoe
      cases hoe

theorem delLevels_none_no_match {h : Nat → Nat} {beta k : Nat} :
    ∀ {ls : List (List Entry)} {cs ss : List Nat},
      levelsWF beta ls cs ss = true → levelsCoherent h beta ls cs ss = true →
      delLevels h beta k ls cs ss = none →
      ∀ n idx, n < ls.length → matchP k (getEnt (ls.getD n []) idx) = false := by
  intro ls
  induction ls with
  | nil => intro cs ss _ _ _ n idx hn; exact absurd hn (by simp)
  | cons level ls ih =>
    intro cs ss hwf hc hdel n idx hn
    cases cs with
    | nil => cases hwf
    | cons count cs =>
      cases ss with
      | nil => cases hwf
      | cons salt ss =>
        rw [levelsWF] at hwf
        simp only [Bool.and_eq_true, decide_eq_true_eq] at hwf
        obtain ⟨⟨hcount, hlen⟩, hwftail⟩ := hwf
        rw [levelsCoherent, Bool.and_eq_true] at hc
        rw [delLevels] at hdel
        cases hscan : scanBucket (matchP k) level (fhash h k salt % count * beta) beta with
        | some i => rw [hscan] at hdel; cases hdel
        | none =>
          rw [hscan] at hdel
          cases n with
          | zero =>
            show matchP k (getEnt level idx) = false
            by_contra hm
            rw [Bool.not_eq_false] at hm
            have hidx : idx < level.length := matchP_getEnt_lt hm
            have hcoh := levelCoherent_iff.mp hc.1 idx hidx
              (matchP_true_iff.mp hm).1
            have hkey : (getEnt level idx).key = k := (matchP_true_iff.mp hm).2
            rw [hkey] at hcoh
            have hnone := scanBucket_none_iff.mp hscan
              (idx - fhash h k salt % count * beta) (by omega)
            have heq : fhash h k salt % count * beta
                + (idx - fhash h k salt % count * beta) = idx := by omega
            rw [heq, hm] at hnone
            cases hnone
          | succ n' =>
            cases htail : delLevels h beta k ls cs ss with
            | some ls2 => rw [htail] at hdel; cases hdel
            | none =>
              exact ih hwftail hc.2 htail n' idx (by simpa using Nat.lt_of_succ_lt_succ hn)

theorem delitem_isSome_of_mem {t : FunnelHashTable} {h : Nat → Nat} {k : Nat}
    (hwf : t.WF = true) (hcoh : t.Coherent h = true) (hk : k ∈ t.keys) :
    ∃ t', t.delitem h k = some t' := by
  obtain ⟨hbeta, hpl, hsl, hwl⟩ := wf_parts hwf
  rw [FunnelHashTable.Coherent, Bool.and_eq_true] at hcoh
  unfold FunnelHashTable.delitem
  cases hdl : delLevels h t.beta k t.levels t.level_bucket_counts t.level_salts with
  | some ls => exact ⟨_, rfl⟩
  | none =>
    have hnomatch := delLevels_none_no_match hwl hcoh.1 hdl
    have hspec : ∃ idx, matchP k (getEnt t.special_array idx) = true := by
      rcases mem_keys_cases hk with hlev | hspec
      · obtain ⟨n, idx, hn, hm⟩ := hlev
        rw [hnomatch n idx hn] at hm
        cases hm
      · exact hspec
    obtain ⟨idx, hm⟩ := hspec
    have hidx : idx < t.special_array.length := matchP_getEnt_lt hm
    have hcohs := specialCoherent_iff.mp hcoh.2 idx hidx (matchP_true_iff.mp hm).1
    obtain ⟨j, hj, hje⟩ := hcohs
    have hkey : (getEnt t.special_array idx).key = k := (matchP_true_iff.mp hm).2
    rw [hkey] at hje
    cases hpr : probeSpec (matchP k) t.special_array (fhash h k t.special_salt) 0
        t.probe_limit with
    | some r => exact ⟨_, rfl⟩
    | none =>
      have := probeSpec_none_iff.mp hpr j (by omega) (by omega)
      rw [← hje, hm] at this
      cases this

theorem deleteList_clears {h : Nat → Nat} :
    ∀ {ks : List Nat} {t : FunnelHashTable}, t.WF = true → t.Coherent h = true →
      (↑ks : Multiset Nat) = ↑t.keys →
      (deleteList h ks t).items = [] ∧
        (deleteList h ks t).num_inserts = t.num_inserts - ks.length ∧
        (deleteList h ks t).WF = true := by
  intro ks
  induction ks with
  | nil =>
    intro t hwf _ hkeys
    have hknil : t.keys = [] :=
      (Multiset.coe_eq_coe.mp hkeys.symm).eq_nil
    have hinil : t.items = [] := by
      unfold FunnelHashTable.keys at hknil
      exact List.map_eq_nil_iff.mp hknil
    exact ⟨hinil, by simp [deleteList], hwf⟩
  | cons k ks ih =>
    intro t hwf hcoh hkeys
    have hkmem : k ∈ t.keys := by
      have hm : k ∈ (↑t.keys : Multiset Nat) := by
        rw [← hkeys]
        exact Multiset.mem_coe.mpr (List.mem_cons_self _ _)
      exact Multiset.mem_coe.mp hm
    obtain ⟨t', hdel⟩ := delitem_isSome_of_mem hwf hcoh hkmem
    rw [deleteList, hdel]
    have hocc := delitem_occKeys hdel
    have hkeys' : (↑ks : Multiset Nat) = ↑t'.keys := by
      have e1 : (↑ks : Multiset Nat) + {k} = ↑t'.keys + {k} := by
        rw [hocc, ← hkeys, ← Multiset.cons_coe, ← Multiset.singleton_add]
        exact add_comm _ _
      exact add_right_cancel e1
    obtain ⟨h1, h2, h3⟩ := ih (delitem_wf hwf hdel) (delitem_coherent hcoh hdel) hkeys'
    refine ⟨h1, ?_, h3⟩
    obtain ⟨v, _, hnum⟩ := delitem_occEntries hdel
    rw [h2, hnum]
    simp only [List.length_cons]
    push_cast
    ring

theorem unoccupied_of_items_nil {t : FunnelHashTable} (hnil : t.items = []) :
    (∀ l ∈ t.levels, ∀ e ∈ l, e.occupied = false) ∧
      (∀ e ∈ t.special_array, e.occupied = false) := by
  unfold FunnelHashTable.items at hnil
  rw [List.append_eq_nil] at hnil
  obtain ⟨h1, h2⟩ := hnil
  constructor
  · intro l hl e he
    rw [List.flatten_eq_nil_iff] at h1
    have hfl := h1 (l.filterMap occPair) (List.mem_map_of_mem _ hl)
    rw [List.filterMap_eq_nil_iff] at hfl
    have hfe := hfl e he
    unfold occPair at hfe
    by_contra hocc
    rw [Bool.not_eq_false] at hocc
    rw [if_pos hocc] at hfe
    cases hfe
  · intro e he
    rw [List.filterMap_eq_nil_iff] at h2
    have hfe := h2 e he
    unfold occPair at hfe
    by_contra hocc
    rw [Bool.not_eq_false] at hocc
    rw [if_pos hocc] at hfe
    cases hfe

/-- C6 (amended): after `clear()` on a well-formed coherent table — both
properties hold for every table the program can build — every slot in every
level and in the special array is unoccupied and a subsequent full
iteration yields no pairs; the reported length drops by exactly the number
of previously occupied slots, so `len(table) == 0` holds exactly when
`num_inserts` agreed with the occupied-slot count before the call.
Repeated overwrites of existing keys break that equality (see the
counterexample, where `clear` leaves `len(table) == 1`), which is all the
counterexample forces to change in the claim. -/
theorem C6_clear_empties {t : FunnelHashTable} {h : Nat → Nat}
    (hwf : t.WF = true) (hcoh : t.Coherent h = true) :
    (t.clear h).items = [] ∧
      (∀ l ∈ (t.clear h).levels, ∀ e ∈ l, e.occupied = false) ∧
      (∀ e ∈ (t.clear h).special_array, e.occupied = false) ∧
      (t.clear h).len = t.num_inserts - occupiedCount t ∧
      (t.num_inserts = occupiedCount t → (t.clear h).len = 0) := by
  obtain ⟨h1, h2, _⟩ := deleteList_clears hwf hcoh rfl
  have hunocc := unoccupied_of_items_nil h1
  have hkl : t.keys.length = occupiedCount t := by
    unfold FunnelHashTable.keys occupiedCount
    exact List.length_map _ _
  refine ⟨h1, hunocc.1, hunocc.2, ?_, ?_⟩
  · show (t.clear h).num_inserts = t.num_inserts - occupiedCount t
    unfold FunnelHashTable.clear
    rw [h2, hkl]
  · intro heq
    show (t.clear h).num_inserts = 0
    unfold FunnelHashTable.clear
    rw [h2, hkl, ← heq]
    omega

theorem C6_witness :
    t2c.WF = true ∧ t2c.Coherent hid = true ∧
      ((t2c.clear hid).items = [] ∧
        (∀ l ∈ (t2c.clear hid).levels, ∀ e ∈ l, e.occupied = false) ∧
        (∀ e ∈ (t2c.clear hid).special_array, e.occupied = false) ∧
        (t2c.clear hid).len = t2c.num_inserts - occupiedCount t2c ∧
        (t2c.num_inserts = occupiedCount t2c → (t2c.clear hid).len = 0)) :=
  ⟨by decide, by decide, C6_clear_empties (by decide) (by decide)⟩

/-- C9: for every valid construction input (`capacity >= 1`,
`0 < delta < 1`) the derived constants satisfy `0 < max_inserts <= capacity`
and `beta >= 1`, where `max_inserts = capacity - floor(delta * capacity)`
and `beta = ceil(2 * log2(1 / delta))` exactly as `__init__` computes them. -/
theorem C9_derived_constants {capacity : ℕ} {delta : ℝ}
    (hcap : 1 ≤ capacity) (hd0 : 0 < delta) (hd1 : delta < 1) :
    0 < maxInsertsD capacity delta ∧ maxInsertsD capacity delta ≤ capacity ∧
      1 ≤ betaD delta := by
  have hcpos : (1 : ℝ) ≤ (capacity : ℝ) := by exact_mod_cast hcap
  refine ⟨?_, ?_, ?_⟩
  · have h1 : delta * (capacity : ℝ) < capacity := by nlinarith
    have hfl : ⌊delta * (capacity : ℝ)⌋ < (capacity : ℤ) := by
      rw [Int.floor_lt]
      push_cast
      exact h1
    unfold maxInsertsD
    omega
  · have h0 : 0 ≤ ⌊delta * (capacity : ℝ)⌋ := Int.floor_nonneg.mpr (by positivity)
    unfold maxInsertsD
    omega
  · have hlog : 0 < Real.logb 2 (1 / delta) :=
      Real.logb_pos (by norm_num) (one_lt_one_div hd0 hd1)
    have hpos : (0 : ℤ) < ⌈2 * Real.logb 2 (1 / delta)⌉ := Int.ceil_pos.mpr (by linarith)
    unfold betaD
    omega

theorem C9_witness :
    (1 ≤ 2 ∧ (0 : ℝ) < 1 / 2 ∧ (1 : ℝ) / 2 < 1) ∧
      (0 < maxInsertsD 2 (1 / 2) ∧ maxInsertsD 2 (1 / 2) ≤ 2 ∧ 1 ≤ betaD (1 / 2)) :=
  ⟨⟨by omega, one_half_pos, one_half_lt_one⟩,
    C9_derived_constants (by omega) one_half_pos one_half_lt_one⟩

theorem levelLoop_sum_le (a1 : ℝ) :
    ∀ (fuel i remaining : ℕ), (levelLoop a1 i fuel remaining).sum ≤ remaining := by
  intro fuel
  induction fuel with
  | zero => intro i r; simp [levelLoop]
  | succ n ih =>
    intro i r
    rw [levelLoop]
    by_cases hr : r = 0
    · rw [if_pos hr]
      simp
    · rw [if_neg hr]
      rw [List.sum_cons]
      have ha : min (max 1 (round (a1 * (0.75 : ℝ) ^ i)).toNat) r ≤ r :=
        Nat.min_le_right _ _
      have hrec := ih (i + 1) (r - min (max 1 (round (a1 * (0.75 : ℝ) ^ i)).toNat) r)
      omega

/-- C8: for every valid construction input, the total primary storage — the
sum over all created levels of `bucket_count * beta` slots — plus the
special-array size fits within `capacity`. -/
theorem C8_sizes_fit_capacity {capacity : ℕ} {delta : ℝ}
    (hcap : 1 ≤ capacity) (hd0 : 0 < delta) (hd1 : delta < 1) :
    (levelCountsD capacity delta).sum * (betaD delta).toNat
        + specialSizeD capacity delta ≤ capacity := by
  have hcpos : (1 : ℝ) ≤ (capacity : ℝ) := by exact_mod_cast hcap
  have hsum : (levelCountsD capacity delta).sum ≤ totalBucketsD capacity delta :=
    levelLoop_sum_le _ _ _ _
  have hbuckets : totalBucketsD capacity delta * (betaD delta).toNat
      ≤ primarySizeD capacity delta := Nat.div_mul_le_self _ _
  have hmul : (levelCountsD capacity delta).sum * (betaD delta).toNat
      ≤ primarySizeD capacity delta :=
    le_trans (Nat.mul_le_mul_right _ hsum) hbuckets
  have hspec : specialSizeD capacity delta ≤ capacity := by
    unfold specialSizeD
    have hlt : ⌊3 * delta * (capacity : ℝ) / 4⌋ < (capacity : ℤ) := by
      rw [Int.floor_lt]
      push_cast
      nlinarith
    have h0 : (⌊3 * delta * (capacity : ℝ) / 4⌋).toNat ≤ capacity - 1 := by omega
    exact Nat.max_le.mpr ⟨hcap, by omega⟩
  unfold primarySizeD at hmul
  omega

theorem C8_witness :
    (1 ≤ 2 ∧ (0 : ℝ) < 1 / 2 ∧ (1 : ℝ) / 2 < 1) ∧
      (levelCountsD 2 (1 / 2)).sum * (betaD (1 / 2)).toNat + specialSizeD 2 (1 / 2) ≤ 2 :=
  ⟨⟨by omega, one_half_pos, one_half_lt_one⟩,
    C8_sizes_fit_capacity (by omega) one_half_pos one_half_lt_one⟩

theorem logb_two_four_thirds_le_half : Real.logb 2 (4 / 3) ≤ 1 / 2 := by
  rw [Real.logb, div_le_iff₀ (Real.log_pos one_lt_two)]
  have h2 : (1 : ℝ) / 2 * Real.log 2 = Real.log 2 / 2 := by ring
  have hsq : Real.log ((4 / 3 : ℝ) ^ 2) ≤ Real.log ((2 : ℝ) ^ 1) := by
    apply Real.log_le_log (by norm_num)
    norm_num
  rw [Real.log_pow, Real.log_pow] at hsq
  push_cast at hsq
  linarith

theorem logb_two_four_thirds_pos : 0 < Real.logb 2 (4 / 3) :=
  Real.logb_pos (by norm_num) (by norm_num)

theorem quarter_lt_logb_two_four_thirds : 1 / 4 < Real.logb 2 (4 / 3) := by
  rw [Real.logb, lt_div_iff₀ (Real.log_pos one_lt_two)]
  have hsq : Real.log ((2 : ℝ) ^ 1) < Real.log ((4 / 3 : ℝ) ^ 4) := by
    apply Real.log_lt_log (by norm_num)
    norm_num
  rw [Real.log_pow, Real.log_pow] at hsq
  push_cast at hsq
  linarith

theorem betaD_three_quarters : betaD (3 / 4) = 1 := by
  unfold betaD
  rw [Int.ceil_eq_iff]
  have h34 : (1 : ℝ) / (3 / 4) = 4 / 3 := by norm_num
  rw [h34]
  constructor
  · push_cast
    have := logb_two_four_thirds_pos
    linarith
  · push_cast
    have := logb_two_four_thirds_le_half
    linarith

theorem alphaD_three_quarters : alphaD (3 / 4) = 12 := by
  unfold alphaD
  rw [Int.ceil_eq_iff]
  have h34 : (1 : ℝ) / (3 / 4) = 4 / 3 := by norm_num
  rw [h34]
  constructor
  · push_cast
    have := quarter_lt_logb_two_four_thirds
    linarith
  · push_cast
    have := logb_two_four_thirds_le_half
    linarith

theorem maxInsertsD_five : maxInsertsD 5 (3 / 4) = 2 := by
  unfold maxInsertsD
  have hfl : ⌊(3 / 4 : ℝ) * (5 : ℕ)⌋ = 3 := by
    rw [Int.floor_eq_iff]
    push_cast
    norm_num
  rw [hfl]
  rfl

theorem specialSizeD_five : specialSizeD 5 (3 / 4) = 2 := by
  unfold specialSizeD
  have hfl : ⌊3 * (3 / 4 : ℝ) * (5 : ℕ) / 4⌋ = 2 := by
    rw [Int.floor_eq_iff]
    push_cast
    norm_num
  rw [hfl]
  rfl

theorem log_three_halves_ge : (1 : ℝ) / 3 ≤ Real.log (3 / 2) := by
  have hle : Real.log ((3 / 2 : ℝ))⁻¹ ≤ ((3 / 2 : ℝ))⁻¹ - 1 :=
    Real.log_le_sub_one_of_pos (by norm_num)
  rw [Real.log_inv] at hle
  have hinv : ((3 / 2 : ℝ))⁻¹ = 2 / 3 := by norm_num
  rw [hinv] at hle
  linarith

theorem log_six_lower : Real.exp 1 - 1 < Real.log 6 := by
  have h6 : Real.log 6 = Real.log 4 + Real.log (3 / 2) := by
    rw [← Real.log_mul (by norm_num) (by norm_num)]
    norm_num
  have hlog4 : Real.log 4 = 2 * Real.log 2 := by
    rw [show (4 : ℝ) = 2 ^ 2 by norm_num, Real.log_pow]
    push_cast
    ring
  have h2 := Real.log_two_gt_d9
  have he := Real.exp_one_lt_d9
  have h32 := log_three_halves_ge
  rw [h6, hlog4]
  nlinarith

theorem log_six_upper : Real.log 6 ≤ 5 := by
  have := Real.log_le_sub_one_of_pos (show (0 : ℝ) < 6 by norm_num)
  linarith

theorem probeLimitD_five : probeLimitD 5 = 2 := by
  unfold probeLimitD
  have harg : ((5 : ℕ) : ℝ) + 1 = 6 := by norm_num
  rw [harg]
  have hceil : ⌈Real.log (Real.log 6 + 1)⌉ = 2 := by
    rw [Int.ceil_eq_iff]
    constructor
    · push_cast
      have hlt : Real.exp 1 < Real.log 6 + 1 := by
        have := log_six_lower
        linarith
      have hlog := Real.log_lt_log (Real.exp_pos 1) hlt
      rw [Real.log_exp] at hlog
      linarith
    · push_cast
      have hexp2 : (6 : ℝ) ≤ Real.exp 2 := by
        have he := Real.exp_one_gt_d9
        have hsq : Real.exp 2 = Real.exp 1 * Real.exp 1 := by
          rw [← Real.exp_add]
          norm_num
        nlinarith
      have hle : Real.log 6 + 1 ≤ Real.exp 2 := by
        have := log_six_upper
        have he := Real.exp_one_gt_d9
        have hsq : Real.exp 2 = Real.exp 1 * Real.exp 1 := by
          rw [← Real.exp_add]
          norm_num
        nlinarith
      have hlog := Real.log_le_log (by positivity) hle
      rw [Real.log_exp] at hlog
      exact hlog
  rw [hceil]
  rfl


theorem totalBucketsD_five : totalBucketsD 5 (3 / 4) = 3 := by
  unfold totalBucketsD primarySizeD
  rw [specialSizeD_five, betaD_three_quarters]
  rfl

theorem a1D_five : a1D 5 (3 / 4) = 3 / (4 * (1 - (0.75 : ℝ) ^ 12)) := by
  unfold a1D
  rw [alphaD_three_quarters, totalBucketsD_five]
  rw [if_pos (by norm_num)]
  rw [show ((12 : ℤ).toNat) = 12 from rfl]
  norm_num

theorem levelLoop_succ (a1 : ℝ) (i fuel remaining : Nat) :
    levelLoop a1 i (fuel + 1) remaining =
      if remaining = 0 then [] else
        min (max 1 (round (a1 * (0.75 : ℝ) ^ i)).toNat) remaining
          :: levelLoop a1 (i + 1) fuel
            (remaining - min (max 1 (round (a1 * (0.75 : ℝ) ^ i)).toNat) remaining) := by
  rw [levelLoop]

theorem round_a1_zero : (round ((3 / (4 * (1 - (0.75 : ℝ) ^ 12))) * (0.75 : ℝ) ^ 0)).toNat
    = 1 := by
  rw [round_eq]
  have hfl : ⌊3 / (4 * (1 - (0.75 : ℝ) ^ 12)) * (0.75 : ℝ) ^ 0 + 1 / 2⌋ = 1 := by
    rw [Int.floor_eq_iff]
    push_cast
    norm_num
  rw [hfl]
  rfl

theorem round_a1_one : (round ((3 / (4 * (1 - (0.75 : ℝ) ^ 12))) * (0.75 : ℝ) ^ 1)).toNat
    = 1 := by
  rw [round_eq]
  have hfl : ⌊3 / (4 * (1 - (0.75 : ℝ) ^ 12)) * (0.75 : ℝ) ^ 1 + 1 / 2⌋ = 1 := by
    rw [Int.floor_eq_iff]
    push_cast
    norm_num
  rw [hfl]
  rfl

theorem round_a1_two : (round ((3 / (4 * (1 - (0.75 : ℝ) ^ 12))) * (0.75 : ℝ) ^ 2)).toNat
    = 0 := by
  rw [round_eq]
  have hfl : ⌊3 / (4 * (1 - (0.75 : ℝ) ^ 12)) * (0.75 : ℝ) ^ 2 + 1 / 2⌋ = 0 := by
    rw [Int.floor_eq_iff]
    push_cast
    norm_num
  rw [hfl]
  rfl

theorem levelCountsD_five : levelCountsD 5 (3 / 4) = [1, 1, 1] := by
  unfold levelCountsD
  rw [alphaD_three_quarters, totalBucketsD_five, a1D_five]
  rw [show ((12 : ℤ).toNat) = 11 + 1 from rfl, levelLoop_succ]
  rw [if_neg (by norm_num), round_a1_zero]
  rw [show (min (max 1 1) 3 : ℕ) = 1 from rfl, show (3 - 1 : ℕ) = 2 from rfl,
    show ((0 : ℕ) + 1) = 1 from rfl]
  rw [show (11 : ℕ) = 10 + 1 from rfl, levelLoop_succ]
  rw [if_neg (by norm_num), round_a1_one]
  rw [show (min (max 1 1) 2 : ℕ) = 1 from rfl, show (2 - 1 : ℕ) = 1 from rfl,
    show ((1 : ℕ) + 1) = 2 from rfl]
  rw [show (10 : ℕ) = 9 + 1 from rfl, levelLoop_succ]
  rw [if_neg (by norm_num), round_a1_two]
  rw [show (min (max 1 0) 1 : ℕ) = 1 from rfl, show (1 - 1 : ℕ) = 0 from rfl]
  rw [show (9 : ℕ) = 8 + 1 from rfl, levelLoop_succ]
  rw [if_pos rfl]

theorem constructedTable_five : constructedTable 5 (3 / 4) (fun _ => 0) 0 = t0c := by
  unfold constructedTable
  rw [maxInsertsD_five, betaD_three_quarters, probeLimitD_five, specialSizeD_five,
    levelCountsD_five]
  rfl

/-- C3 as stated is false on the code.  `t0c` is exactly the table
`FunnelHashTable(5, delta=0.75)` constructs when every drawn salt is 0 (the
first conjunct checks this against the parameter derivation).  Inserting
keys 1 then 0 sends key 0 to level 2 (level 1's only slot is taken by
key 1); deleting key 1 and re-inserting key 0 then puts a second copy of
key 0 into level 1.  From that reachable state `delete(0)` succeeds — yet
`get(0)` still returns the stale copy's value 20 and `0 in table` is still
true. -/
theorem C3_counterexample :
    constructedTable 5 (3 / 4) (fun _ => 0) 0 = t0c ∧
      t0c.WF = true ∧ t0c.Fresh = true ∧
      t3c = applyOps hid t0c [Op.ins 1 10, Op.ins 0 20, Op.del 1] ∧
      t3c.insert hid 0 30 = .ok t4c ∧
      t4c.delitem hid 0 = some t5c ∧
      t5c.contains hid 0 = true ∧ t5c.get? hid 0 = some 20 :=
  ⟨constructedTable_five, by decide, by decide, rfl, rfl, by decide, by decide, by decide⟩

/-- C6 as stated is false on the code.  `t0c` is exactly the table
`FunnelHashTable(5, delta=0.75)` constructs when every drawn salt is 0.
After inserting key 0 twice (the second call overwrites the same slot but
still increments `num_inserts`), `clear()` deletes the single occupied slot
and decrements `num_inserts` only once, so `len(table) = 1 ≠ 0` after the
call even though every slot is unoccupied and a full iteration yields no
pairs. -/
theorem C6_counterexample :
    constructedTable 5 (3 / 4) (fun _ => 0) 0 = t0c ∧
      t0c.WF = true ∧ t0c.Fresh = true ∧
      t2c = applyOps hid t0c [Op.ins 0 10, Op.ins 0 20] ∧
      (t2c.clear hid).items = [] ∧ (t2c.clear hid).len = 1 ∧
      ¬((t2c.clear hid).len = 0) :=
  ⟨constructedTable_five, by decide, by decide, rfl, by decide, by decide, by decide⟩

theorem matchP_getEnt_false_of_unocc {l : List Entry}
    (hun : ∀ e ∈ l, e.occupied = false) (k i : Nat) :
    matchP k (getEnt l i) = false := by
  by_cases hi : i < l.length
  · rw [getEnt_of_lt hi]
    unfold matchP
    rw [hun l[i] (List.getElem_mem hi)]
    rfl
  · rw [getEnt_of_le (Nat.le_of_not_lt hi)]
    rfl

theorem noKeyLevels_of_unocc {h : Nat → Nat} {beta k : Nat} :
    ∀ {ls : List (List Entry)} {cs ss : List Nat},
      (∀ l ∈ ls, ∀ e ∈ l, e.occupied = false) → noKeyLevels h beta k ls cs ss := by
  intro ls
  induction ls with
  | nil => intro cs ss _; cases cs <;> cases ss <;> trivial
  | cons level ls ih =>
    intro cs ss hun
    cases cs with
    | nil => trivial
    | cons count cs =>
      cases ss with
      | nil => trivial
      | cons salt ss =>
        refine ⟨fun j _ => matchP_getEnt_false_of_unocc
          (hun level (List.mem_cons_self _ _)) k _, ?_⟩
        exact ih (fun l hl => hun l (List.mem_cons_of_mem _ hl))

theorem tidyLevels_of_unocc {h : Nat → Nat} {beta probe ssalt k : Nat} {arr : List Entry}
    (harr : ∀ e ∈ arr, e.occupied = false) :
    ∀ {ls : List (List Entry)} {cs ss : List Nat},
      (∀ l ∈ ls, ∀ e ∈ l, e.occupied = false) →
      tidyLevels h beta probe ssalt k arr ls cs ss := by
  intro ls
  induction ls with
  | nil => intro cs ss _; cases cs <;> cases ss <;> trivial
  | cons level ls ih =>
    intro cs ss hun
    cases cs with
    | nil => trivial
    | cons count cs =>
      cases ss with
      | nil => trivial
      | cons salt ss =>
        constructor
        · intro idx _
          refine ⟨?_, ?_, ?_⟩
          · intro j hj hm
            rw [matchP_getEnt_false_of_unocc (hun level (List.mem_cons_self _ _)) k] at hm
            cases hm
          · exact noKeyLevels_of_unocc (fun l hl => hun l (List.mem_cons_of_mem _ hl))
          · intro i _
            exact matchP_getEnt_false_of_unocc harr k _
        · exact ih (fun l hl => hun l (List.mem_cons_of_mem _ hl))

theorem tidy_of_fresh {t : FunnelHashTable} {h : Nat → Nat} (hf : t.Fresh = true) :
    t.Tidy h := by
  unfold FunnelHashTable.Fresh at hf
  simp only [Bool.and_eq_true, List.all_eq_true, Bool.not_eq_eq_eq_not, Bool.not_true] at hf
  obtain ⟨⟨⟨hlv, hsp⟩, _⟩, _⟩ := hf
  intro k
  constructor
  · exact tidyLevels_of_unocc hsp hlv
  · intro r _ i _ hm
    rw [matchP_getEnt_false_of_unocc hsp k] at hm
    cases hm

theorem scan_insP_some_of_match {k : Nat} {level : List Entry} {start beta j : Nat}
    (hj : j < beta) (hm : matchP k (getEnt level (start + j)) = true) :
    ∃ idx, scanBucket (insP k) level start beta = some idx := by
  cases hscan : scanBucket (insP k) level start beta with
  | some idx => exact ⟨idx, rfl⟩
  | none =>
    have hno := scanBucket_none_iff.mp hscan j hj
    rw [insP_of_matchP hm] at hno
    cases hno

theorem match_in_window {h : Nat → Nat} {beta count salt k : Nat} {level : List Entry}
    {idx : Nat} (hcoh : levelCoherent h beta count salt level = true)
    (hm : matchP k (getEnt level idx) = true) :
    ∃ j, j < beta ∧ idx = fhash h k salt % count * beta + j := by
  have hidx := matchP_getEnt_lt hm
  rw [matchP_true_iff] at hm
  have hw := levelCoherent_iff.mp hcoh idx hidx hm.1
  rw [hm.2] at hw
  exact ⟨idx - fhash h k salt % count * beta, by omega, by omega⟩

theorem match_in_special_window {h : Nat → Nat} {probe ssalt k : Nat} {arr : List Entry}
    {idx : Nat} (hcoh : specialCoherent h probe ssalt arr = true)
    (hm : matchP k (getEnt arr idx) = true) :
    ∃ i, i < probe ∧ idx = (fhash h k ssalt + i) % arr.length := by
  have hidx := matchP_getEnt_lt hm
  rw [matchP_true_iff] at hm
  obtain ⟨j, hj, hje⟩ := specialCoherent_iff.mp hcoh idx hidx hm.1
  rw [hm.2] at hje
  exact ⟨j, hj, hje⟩

theorem noKeyLevels_no_match {h : Nat → Nat} {beta k : Nat} :
    ∀ {ls : List (List Entry)} {cs ss : List Nat},
      levelsWF beta ls cs ss = true → levelsCoherent h beta ls cs ss = true →
      noKeyLevels h beta k ls cs ss →
      ∀ n idx, n < ls.length → matchP k (getEnt (ls.getD n []) idx) = false := by
  intro ls
  induction ls with
  | nil => intro cs ss _ _ _ n idx hn; exact absurd hn (by simp)
  | cons level ls ih =>
    intro cs ss hwf hcoh hnk n idx hn
    cases cs with
    | nil => cases hwf
    | cons count cs =>
      cases ss with
      | nil => cases hwf
      | cons salt ss =>
        rw [levelsWF] at hwf
        simp only [Bool.and_eq_true, decide_eq_true_eq] at hwf
        rw [levelsCoherent, Bool.and_eq_true] at hcoh
        cases n with
        | zero =>
          show matchP k (getEnt level idx) = false
          by_contra hm
          rw [Bool.not_eq_false] at hm
          obtain ⟨j, hj, hje⟩ := match_in_window hcoh.1 hm
          have := hnk.1 j hj
          rw [← hje, hm] at this
          cases this
        | succ n' =>
          exact ih hwf.2 hcoh.2 hnk.2 n' idx (by simpa using Nat.lt_of_succ_lt_succ hn)

theorem tidy_levels_unique {h : Nat → Nat} {beta probe ssalt k : Nat} {arr : List Entry} :
    ∀ {ls : List (List Entry)} {cs ss : List Nat},
      levelsWF beta ls cs ss = true → levelsCoherent h beta ls cs ss = true →
      tidyLevels h beta probe ssalt k arr ls cs ss →
      ∀ n1 idx1 n2 idx2, n1 < ls.length → n2 < ls.length →
        matchP k (getEnt (ls.getD n1 []) idx1) = true →
        matchP k (getEnt (ls.getD n2 []) idx2) = true →
        n1 = n2 ∧ idx1 = idx2 := by
  intro ls
  induction ls with
  | nil => intro cs ss _ _ _ n1 idx1 n2 idx2 hn1 _ _ _; exact absurd hn1 (by simp)
  | cons level ls ih =>
    intro cs ss hwf hcoh htidy n1 idx1 n2 idx2 hn1 hn2 hm1 hm2
    cases cs with
    | nil => cases hwf
    | cons count cs =>
      cases ss with
      | nil => cases hwf
      | cons salt ss =>
        rw [levelsWF] at hwf
        simp only [Bool.and_eq_true, decide_eq_true_eq] at hwf
        rw [levelsCoherent, Bool.and_eq_true] at hcoh
        cases n1 with
        | zero =>
          have hm1' : matchP k (getEnt level idx1) = true := hm1
          obtain ⟨j1, hj1, he1⟩ := match_in_window hcoh.1 hm1'
          obtain ⟨idxw, hscan⟩ := scan_insP_some_of_match hj1 (by rw [← he1]; exact hm1')
          cases n2 with
          | zero =>
            have hm2' : matchP k (getEnt level idx2) = true := hm2
            obtain ⟨j2, hj2, he2⟩ := match_in_window hcoh.1 hm2'
            have hcond := (htidy.1 idxw hscan).1
            have e1 := hcond j1 hj1 (by rw [← he1]; exact hm1')
            have e2 := hcond j2 hj2 (by rw [← he2]; exact hm2')
            exact ⟨rfl, by omega⟩
          | succ n2' =>
            have hm2' : matchP k (getEnt (ls.getD n2' []) idx2) = true := hm2
            have hnk := (htidy.1 idxw hscan).2.1
            have hno := noKeyLevels_no_match hwf.2 hcoh.2 hnk n2' idx2
              (by simpa using Nat.lt_of_succ_lt_succ hn2)
            rw [hno] at hm2'
            cases hm2'
        | succ n1' =>
          cases n2 with
          | zero =>
            have hm2' : matchP k (getEnt level idx2) = true := hm2
            obtain ⟨j2, hj2, he2⟩ := match_in_window hcoh.1 hm2'
            obtain ⟨idxw, hscan⟩ := scan_insP_some_of_match hj2 (by rw [← he2]; exact hm2')
            have hm1' : matchP k (getEnt (ls.getD n1' []) idx1) = true := hm1
            have hnk := (htidy.1 idxw hscan).2.1
            have hno := noKeyLevels_no_match hwf.2 hcoh.2 hnk n1' idx1
              (by simpa using Nat.lt_of_succ_lt_succ hn1)
            rw [hno] at hm1'
            cases hm1'
          | succ n2' =>
            have hm1' : matchP k (getEnt (ls.getD n1' []) idx1) = true := hm1
            have hm2' : matchP k (getEnt (ls.getD n2' []) idx2) = true := hm2
            obtain ⟨hn, hidx⟩ := ih hwf.2 hcoh.2 htidy.2 n1' idx1 n2' idx2
              (by simpa using Nat.lt_of_succ_lt_succ hn1)
              (by simpa using Nat.lt_of_succ_lt_succ hn2) hm1' hm2'
            exact ⟨by omega, hidx⟩

theorem tidy_level_special_unique {h : Nat → Nat} {beta probe ssalt k : Nat}
    {arr : List Entry} (hscoh : specialCoherent h probe ssalt arr = true) :
    ∀ {ls : List (List Entry)} {cs ss : List Nat},
      levelsWF beta ls cs ss = true → levelsCoherent h beta ls cs ss = true →
      tidyLevels h beta probe ssalt k arr ls cs ss →
      ∀ n idx1, n < ls.length → matchP k (getEnt (ls.getD n []) idx1) = true →
      ∀ idx2, matchP k (getEnt arr idx2) = true → False := by
  intro ls
  induction ls with
  | nil => intro cs ss _ _ _ n idx1 hn _ _ _; exact absurd hn (by simp)
  | cons level ls ih =>
    intro cs ss hwf hcoh htidy n idx1 hn hm1 idx2 hm2
    cases cs with
    | nil => cases hwf
    | cons count cs =>
      cases ss with
      | nil => cases hwf
      | cons salt ss =>
        rw [levelsWF] at hwf
        simp only [Bool.and_eq_true, decide_eq_true_eq] at hwf
        rw [levelsCoherent, Bool.and_eq_true] at hcoh
        cases n with
        | zero =>
          have hm1' : matchP k (getEnt level idx1) = true := hm1
          obtain ⟨j1, hj1, he1⟩ := match_in_window hcoh.1 hm1'
          obtain ⟨idxw, hscan⟩ := scan_insP_some_of_match hj1 (by rw [← he1]; exact hm1')
          have hns := (htidy.1 idxw hscan).2.2
          obtain ⟨i2, hi2, he2⟩ := match_in_special_window hscoh hm2
          have := hns i2 hi2
          rw [← he2, hm2] at this
          cases this
        | succ n' =>
          exact ih hwf.2 hcoh.2 htidy.2 n' idx1
            (by simpa using Nat.lt_of_succ_lt_succ hn) hm1 idx2 hm2

theorem tidy_special_unique {h : Nat → Nat} {probe ssalt k : Nat} {arr : List Entry}
    (hcoh : specialCoherent h probe ssalt arr = true)
    (htidy : tidySpecial h probe ssalt k arr)
    {idx1 idx2 : Nat} (hm1 : matchP k (getEnt arr idx1) = true)
    (hm2 : matchP k (getEnt arr idx2) = true) : idx1 = idx2 := by
  obtain ⟨i1, hi1, he1⟩ := match_in_special_window hcoh hm1
  obtain ⟨i2, hi2, he2⟩ := match_in_special_window hcoh hm2
  cases hpr : probeSpec (insP k) arr (fhash h k ssalt) 0 probe with
  | none =>
    have hno := probeSpec_none_iff.mp hpr i1 (by omega) (by omega)
    rw [← he1, insP_of_matchP hm1] at hno
    cases hno
  | some r =>
    have e1 := htidy r hpr i1 hi1 (by rw [← he1]; exact hm1)
    have e2 := htidy r hpr i2 hi2 (by rw [← he2]; exact hm2)
    omega

theorem match_level_lt {t : FunnelHashTable} {n idx k : Nat}
    (hm : matchP k (readSlot t (.level n idx)) = true) : n < t.levels.length := by
  by_contra hn
  simp only [readSlot] at hm
  rw [List.getD_eq_getElem?_getD, List.getElem?_eq_none (Nat.le_of_not_lt hn)] at hm
  cases hm

theorem tidy_slot_unique {t : FunnelHashTable} {h : Nat → Nat}
    (hwf : t.WF = true) (hcoh : t.Coherent h = true) (htidy : t.Tidy h) :
    ∀ k s1 s2, matchP k (readSlot t s1) = true → matchP k (readSlot t s2) = true →
      s1 = s2 := by
  intro k s1 s2 hm1 hm2
  obtain ⟨hbeta, hpl, hsl, hwl⟩ := wf_parts hwf
  rw [FunnelHashTable.Coherent, Bool.and_eq_true] at hcoh
  obtain ⟨htl, hts⟩ := htidy k
  cases s1 with
  | level n1 idx1 =>
    have hn1 := match_level_lt hm1
    cases s2 with
    | level n2 idx2 =>
      have hn2 := match_level_lt hm2
      simp only [readSlot] at hm1 hm2
      obtain ⟨hn, hidx⟩ := tidy_levels_unique hwl hcoh.1 htl n1 idx1 n2 idx2 hn1 hn2 hm1 hm2
      rw [hn, hidx]
    | special idx2 =>
      simp only [readSlot] at hm1 hm2
      exact (tidy_level_special_unique hcoh.2 hwl hcoh.1 htl n1 idx1 hn1 hm1 idx2 hm2).elim
  | special idx1 =>
    cases s2 with
    | level n2 idx2 =>
      have hn2 := match_level_lt hm2
      simp only [readSlot] at hm1 hm2
      exact (tidy_level_special_unique hcoh.2 hwl hcoh.1 htl n2 idx2 hn2 hm2 idx1 hm1).elim
    | special idx2 =>
      simp only [readSlot] at hm1 hm2
      rw [tidy_special_unique hcoh.2 hts hm1 hm2]

theorem noKeyLevels_congr {h : Nat → Nat} {beta k : Nat} :
    ∀ {ls ls' : List (List Entry)}, List.Forall₂ (frameR k) ls ls' →
      ∀ {cs ss : List Nat}, noKeyLevels h beta k ls cs ss → noKeyLevels h beta k ls' cs ss := by
  intro ls ls' hrel
  induction hrel with
  | nil => intro cs ss hn; cases cs <;> cases ss <;> trivial
  | cons hR hrest ih =>
    intro cs ss hn
    cases cs with
    | nil => trivial
    | cons count cs =>
      cases ss with
      | nil => trivial
      | cons salt ss =>
        refine ⟨fun j hj => ?_, ih hn.2⟩
        rw [hR.1]
        exact hn.1 j hj

theorem tidyLevels_ins_preserved {h : Nat → Nat} {beta probe ssalt k' v' : Nat}
    {arr : List Entry} :
    ∀ {ls : List (List Entry)} {cs ss : List Nat} {ls' : List (List Entry)},
      levelsWF beta ls cs ss = true →
      insertLevels h beta k' v' ls cs ss = some ls' →
      (∀ k, tidyLevels h beta probe ssalt k arr ls cs ss) →
      ∀ k, tidyLevels h beta probe ssalt k arr ls' cs ss := by
  intro ls
  induction ls with
  | nil => intro cs ss ls' _ hins _; cases hins
  | cons level ls ih =>
    intro cs ss ls' hwf hins htidy k
    cases cs with
    | nil => cases hwf
    | cons count cs =>
      cases ss with
      | nil => cases hwf
      | cons salt ss =>
        rw [levelsWF] at hwf
        simp only [Bool.and_eq_true, decide_eq_true_eq] at hwf
        obtain ⟨⟨hcount, hlen⟩, hwftail⟩ := hwf
        rw [insertLevels] at hins
        cases hscan' : scanBucket (insP k') level (fhash h k' salt % count * beta) beta with
        | some idxw =>
          rw [hscan'] at hins
          cases hins
          obtain ⟨jw, hjw, hrw, hpw, hbefw⟩ := scanBucket_eq_some hscan'
          have hblt : fhash h k' salt % count < count := Nat.mod_lt _ (by omega)
          have hidxlt : idxw < level.length := by
            rw [hrw]
            exact window_lt hlen hblt hjw
          constructor
          · intro idx hscan_new
            by_cases hkk : k' = k
            · subst hkk
              have hnewent : insP k' (⟨k', v', true⟩ : Entry) = true := by simp [insP]
              have hscan_eq : scanBucket (insP k') (level.set idxw ⟨k', v', true⟩)
                  (fhash h k' salt % count * beta) beta = some idxw := by
                rw [hrw]
                apply scanBucket_some_of jw hjw
                · rw [← hrw, getEnt_set_self _ hidxlt]
                  exact hnewent
                · intro j' hj'
                  rw [getEnt_set_ne _ (by omega)]
                  exact hbefw j' hj'
              rw [hscan_eq] at hscan_new
              cases hscan_new
              refine ⟨?_, ((htidy k').1 idxw hscan').2.1, ((htidy k').1 idxw hscan').2.2⟩
              intro j hj hm
              by_cases hje : fhash h k' salt % count * beta + j = idxw
              · exact hje
              · rw [getEnt_set_ne _ hje] at hm
                exact ((htidy k').1 idxw hscan').1 j hj hm
            · obtain ⟨jn, hjn, hrn, hpn, hbefn⟩ := scanBucket_eq_some hscan_new
              have hEins : insP k (⟨k', v', true⟩ : Entry) = false := by
                simp [insP, hkk]
              have hidxne : idx ≠ idxw := by
                intro he
                rw [he, getEnt_set_self _ hidxlt, hEins] at hpn
                cases hpn
              rw [getEnt_set_ne _ hidxne] at hpn
              have hold_some : ∃ idxold, scanBucket (insP k) level
                  (fhash h k salt % count * beta) beta = some idxold := by
                cases holds : scanBucket (insP k) level
                    (fhash h k salt % count * beta) beta with
                | some i => exact ⟨i, rfl⟩
                | none =>
                  have hc := scanBucket_none_iff.mp holds jn hjn
                  rw [← hrn, hpn] at hc
                  cases hc
              obtain ⟨idxold, hold⟩ := hold_some
              obtain ⟨jo, hjo, hro, hpo, hbefo⟩ := scanBucket_eq_some hold
              have hcons_old := (htidy k).1 idxold hold
              refine ⟨?_, hcons_old.2.1, hcons_old.2.2⟩
              intro j hj hm
              by_cases hje : fhash h k salt % count * beta + j = idxw
              · rw [hje, getEnt_set_self _ hidxlt] at hm
                have hmf : matchP k (⟨k', v', true⟩ : Entry) = false := by
                  simp [matchP, hkk]
                rw [hmf] at hm
                cases hm
              · rw [getEnt_set_ne _ hje] at hm
                have hmeq := hcons_old.1 j hj hm
                have hmo : matchP k (getEnt level idxold) = true := by
                  rw [← hmeq]
                  exact hm
                have hiw_ne : idxold ≠ idxw := by
                  intro he
                  rw [he, matchP_false_of_insP_other hkk hpw] at hmo
                  cases hmo
                have hscan_eq : scanBucket (insP k) (level.set idxw ⟨k', v', true⟩)
                    (fhash h k salt % count * beta) beta = some idxold := by
                  rw [hro]
                  apply scanBucket_some_of jo hjo
                  · rw [← hro, getEnt_set_ne _ hiw_ne]
                    exact hpo
                  · intro j' hj'
                    by_cases hje' : fhash h k salt % count * beta + j' = idxw
                    · rw [hje', getEnt_set_self _ hidxlt]
                      exact hEins
                    · rw [getEnt_set_ne _ hje']
                      exact hbefo j' hj'
                have hii : idx = idxold := by
                  have := hscan_eq.symm.trans hscan_new
                  exact (Option.some.inj this).symm
                omega
          · exact (htidy k).2
        | none =>
          rw [hscan'] at hins
          cases htail : insertLevels h beta k' v' ls cs ss with
          | none => rw [htail] at hins; cases hins
          | some ls2 =>
            rw [htail] at hins
            simp only [Option.map_some'] at hins
            cases hins
            constructor
            · intro idx hscan_new
              by_cases hkk : k' = k
              · subst hkk
                rw [hscan_new] at hscan'
                cases hscan'
              · have hcons_old := (htidy k).1 idx hscan_new
                refine ⟨hcons_old.1, ?_, hcons_old.2.2⟩
                exact noKeyLevels_congr (insertLevels_rel hkk htail) hcons_old.2.1
            · exact ih hwftail htail (fun k0 => (htidy k0).2) k

theorem matchP_mk_self (k v : Nat) : matchP k ⟨k, v, true⟩ = true := by
  simp [matchP]

theorem insP_mk_self (k v : Nat) : insP k ⟨k, v, true⟩ = true := by
  simp [insP]

theorem matchP_mk_other {k k' : Nat} (v' : Nat) (hk : k' ≠ k) :
    matchP k ⟨k', v', true⟩ = false := by
  simp [matchP, hk]

theorem insP_mk_other {k k' : Nat} (v' : Nat) (hk : k' ≠ k) :
    insP k ⟨k', v', true⟩ = false := by
  simp [insP, hk]

theorem tidyLevels_of_insertLevels_none {h : Nat → Nat} {beta probe ssalt k v : Nat}
    (arr : List Entry) :
    ∀ {ls : List (List Entry)} {cs ss : List Nat},
      insertLevels h beta k v ls cs ss = none →
      tidyLevels h beta probe ssalt k arr ls cs ss := by
  intro ls
  induction ls with
  | nil => intro cs ss _; cases cs <;> cases ss <;> trivial
  | cons level ls ih =>
    intro cs ss hins
    cases cs with
    | nil => trivial
    | cons count cs =>
      cases ss with
      | nil => trivial
      | cons salt ss =>
        rw [insertLevels] at hins
        cases hscan : scanBucket (insP k) level (fhash h k salt % count * beta) beta with
        | some idx => rw [hscan] at hins; cases hins
        | none =>
          rw [hscan] at hins
          cases htail : insertLevels h beta k v ls cs ss with
          | some ls2 =>
            rw [htail] at hins
            simp only [Option.map_some'] at hins
            cases hins
          | none =>
            refine ⟨?_, ih htail⟩
            intro idx hidx
            rw [hscan] at hidx
            cases hidx

theorem noKeySpecial_set_other {h : Nat → Nat} {probe ssalt k k' v' : Nat}
    {arr : List Entry} {p : Nat} (hk : k' ≠ k)
    (hns : noKeySpecial h probe ssalt k arr) :
    noKeySpecial h probe ssalt k (arr.set p ⟨k', v', true⟩) := by
  intro i hi
  rw [List.length_set]
  by_cases he : (fhash h k ssalt + i) % arr.length = p
  · rw [he]
    by_cases hp : p < arr.length
    · rw [getEnt_set_self _ hp]
      exact matchP_mk_other v' hk
    · rw [getEnt_of_le (by rw [List.length_set]; omega)]
      rfl
  · rw [getEnt_set_ne _ he]
    exact hns i hi

theorem tidyLevels_spec_preserved {h : Nat → Nat} {beta probe ssalt k k' v' : Nat}
    {arr : List Entry} {p : Nat} (hk : k' ≠ k) :
    ∀ {ls : List (List Entry)} {cs ss : List Nat},
      tidyLevels h beta probe ssalt k arr ls cs ss →
      tidyLevels h beta probe ssalt k (arr.set p ⟨k', v', true⟩) ls cs ss := by
  intro ls
  induction ls with
  | nil => intro cs ss _; cases cs <;> cases ss <;> trivial
  | cons level ls ih =>
    intro cs ss htidy
    cases cs with
    | nil => trivial
    | cons count cs =>
      cases ss with
      | nil => trivial
      | cons salt ss =>
        refine ⟨?_, ih htidy.2⟩
        intro idx hscan
        obtain ⟨hmat, hnk, hns⟩ := htidy.1 idx hscan
        exact ⟨hmat, hnk, noKeySpecial_set_other hk hns⟩

theorem tidySpecial_spec_preserved_self {h : Nat → Nat} {probe ssalt k' v' : Nat}
    {arr : List Entry} {p : Nat} (hlen : 1 ≤ arr.length)
    (hprobe : probeSpec (insP k') arr (fhash h k' ssalt) 0 probe = some p)
    (htidy : tidySpecial h probe ssalt k' arr) :
    tidySpecial h probe ssalt k' (arr.set p ⟨k', v', true⟩) := by
  obtain ⟨jp, hjp0, hjp, hr, hpp, hbef⟩ := probeSpec_eq_some hprobe
  have hplt : p < arr.length := by
    rw [hr]; exact Nat.mod_lt _ (by omega)
  have hex : ∃ j, (fhash h k' ssalt + j) % arr.length = p := ⟨jp, hr.symm⟩
  have hQ0 : (fhash h k' ssalt + Nat.find hex) % arr.length = p := Nat.find_spec hex
  have hmin : ∀ m, m < Nat.find hex → (fhash h k' ssalt + m) % arr.length ≠ p :=
    fun m hm => Nat.find_min hex hm
  have hj0le : Nat.find hex ≤ jp := Nat.find_min' hex hr.symm
  have hnew : probeSpec (insP k') (arr.set p ⟨k', v', true⟩) (fhash h k' ssalt) 0 probe
      = some p := by
    have hkey : (fhash h k' ssalt + Nat.find hex) % (arr.set p ⟨k', v', true⟩).length
        = p := by
      rw [List.length_set]; exact hQ0
    have hnew0 : probeSpec (insP k') (arr.set p ⟨k', v', true⟩) (fhash h k' ssalt) 0 probe
        = some ((fhash h k' ssalt + Nat.find hex)
            % (arr.set p ⟨k', v', true⟩).length) := by
      apply probeSpec_some_of (Nat.find hex) (Nat.zero_le _) (by omega)
      · rw [hkey, getEnt_set_self _ hplt]
        exact insP_mk_self k' v'
      · intro i' _ hi'
        rw [List.length_set]
        by_cases hip : (fhash h k' ssalt + i') % arr.length = p
        · exact absurd hip (hmin i' hi')
        · rw [getEnt_set_ne _ hip]
          exact hbef i' (Nat.zero_le _) (by omega)
    rw [hkey] at hnew0
    exact hnew0
  intro r hr' i hi hm
  rw [hnew] at hr'
  have hrp := Option.some.inj hr'
  rw [List.length_set] at hm ⊢
  rw [← hrp]
  by_cases hip : (fhash h k' ssalt + i) % arr.length = p
  · exact hip
  · rw [getEnt_set_ne _ hip] at hm
    exact htidy p hprobe i hi hm

theorem tidySpecial_spec_preserved_other {h : Nat → Nat} {probe ssalt k k' v' : Nat}
    {arr : List Entry} {p : Nat} (hk : k' ≠ k) (hplt : p < arr.length)
    (htidy : tidySpecial h probe ssalt k arr) :
    tidySpecial h probe ssalt k (arr.set p ⟨k', v', true⟩) := by
  intro r hr' i hi hm
  rw [List.length_set] at hm ⊢
  have hip : (fhash h k ssalt + i) % arr.length ≠ p := by
    intro he
    rw [he, getEnt_set_self _ hplt, matchP_mk_other v' hk] at hm
    cases hm
  rw [getEnt_set_ne _ hip] at hm
  cases hold : probeSpec (insP k) arr (fhash h k ssalt) 0 probe with
  | none =>
    have hno := probeSpec_none_iff.mp hold i (Nat.zero_le _) (by omega)
    rw [insP_of_matchP hm] at hno
    cases hno
  | some rold =>
    have hpos := htidy rold hold i hi hm
    obtain ⟨jo, hjo0, hjo, hro, hpo, hbefo⟩ := probeSpec_eq_some hold
    have hrold_ne : rold ≠ p := by
      rw [← hpos]; exact hip
    have hnew : probeSpec (insP k) (arr.set p ⟨k', v', true⟩) (fhash h k ssalt) 0 probe
        = some rold := by
      have hkey : (fhash h k ssalt + jo) % (arr.set p ⟨k', v', true⟩).length = rold := by
        rw [List.length_set]; exact hro.symm
      have hnew0 : probeSpec (insP k) (arr.set p ⟨k', v', true⟩) (fhash h k ssalt) 0 probe
          = some ((fhash h k ssalt + jo) % (arr.set p ⟨k', v', true⟩).length) := by
        apply probeSpec_some_of jo (Nat.zero_le _) hjo
        · rw [hkey, getEnt_set_ne _ hrold_ne]
          exact hpo
        · intro i' _ hi'
          rw [List.length_set]
          by_cases hip' : (fhash h k ssalt + i') % arr.length = p
          · rw [hip', getEnt_set_self _ hplt]
            exact insP_mk_other v' hk
          · rw [getEnt_set_ne _ hip']
            exact hbefo i' (Nat.zero_le _) hi'
      rw [hkey] at hnew0
      exact hnew0
    rw [hnew] at hr'
    rw [← Option.some.inj hr']
    exact hpos

theorem insert_tidy {t t' : FunnelHashTable} {h : Nat → Nat} {k v : Nat}
    (hwf : t.WF = true) (htidy : t.Tidy h) (hins : t.insert h k v = .ok t') :
    t'.Tidy h := by
  obtain ⟨hbeta, hpl, hsl, hwl⟩ := wf_parts hwf
  unfold FunnelHashTable.insert at hins
  by_cases hfull : (t.max_inserts : Int) ≤ t.num_inserts
  · rw [if_pos hfull] at hins; cases hins
  · rw [if_neg hfull] at hins
    cases hlev : insertLevels h t.beta k v t.levels t.level_bucket_counts t.level_salts with
    | some ls =>
      rw [hlev] at hins
      cases hins
      intro k0
      refine ⟨?_, (htidy k0).2⟩
      exact tidyLevels_ins_preserved hwl hlev (fun k1 => (htidy k1).1) k0
    | none =>
      rw [hlev] at hins
      cases hpr : probeSpec (insP k) t.special_array (fhash h k t.special_salt) 0
          t.probe_limit with
      | none => rw [hpr] at hins; cases hins
      | some p =>
        rw [hpr] at hins
        cases hins
        obtain ⟨jp, _, _, hrp, _, _⟩ := probeSpec_eq_some hpr
        have hplt : p < t.special_array.length := by
          rw [hrp]; exact Nat.mod_lt _ (by omega)
        intro k0
        by_cases hk0 : k = k0
        · subst hk0
          exact ⟨tidyLevels_of_insertLevels_none _ hlev,
            tidySpecial_spec_preserved_self hsl hpr ((htidy k).2)⟩
        · exact ⟨tidyLevels_spec_preserved hk0 ((htidy k0).1),
            tidySpecial_spec_preserved_other hk0 hplt ((htidy k0).2)⟩

theorem levelsCoherent_of_unocc {h : Nat → Nat} {beta : Nat} :
    ∀ {ls : List (List Entry)} {cs ss : List Nat},
      (∀ l ∈ ls, ∀ e ∈ l, e.occupied = false) →
      levelsCoherent h beta ls cs ss = true := by
  intro ls
  induction ls with
  | nil => intro cs ss _; cases cs <;> cases ss <;> rfl
  | cons level ls ih =>
    intro cs ss hun
    cases cs with
    | nil => rfl
    | cons count cs =>
      cases ss with
      | nil => rfl
      | cons salt ss =>
        rw [levelsCoherent, Bool.and_eq_true]
        constructor
        · rw [levelCoherent_iff]
          intro idx hidx hocc
          rw [getEnt_of_lt hidx] at hocc
          rw [hun level (List.mem_cons_self _ _) _ (List.getElem_mem hidx)] at hocc
          cases hocc
        · exact ih (fun l hl => hun l (List.mem_cons_of_mem _ hl))

theorem fresh_coherent {t : FunnelHashTable} {h : Nat → Nat} (hf : t.Fresh = true) :
    t.Coherent h = true := by
  unfold FunnelHashTable.Fresh at hf
  simp only [Bool.and_eq_true, List.all_eq_true, Bool.not_eq_eq_eq_not, Bool.not_true] at hf
  obtain ⟨⟨⟨hlv, hsp⟩, _⟩, _⟩ := hf
  rw [FunnelHashTable.Coherent, Bool.and_eq_true]
  constructor
  · exact levelsCoherent_of_unocc hlv
  · rw [specialCoherent_iff]
    intro idx hidx hocc
    rw [getEnt_of_lt hidx] at hocc
    rw [hsp _ (List.getElem_mem hidx)] at hocc
    cases hocc

theorem applyOps_ins_inv {h : Nat → Nat} :
    ∀ {ops : List Op} {t : FunnelHashTable},
      (∀ op ∈ ops, isIns op = true) →
      t.WF = true → t.Coherent h = true → t.Tidy h →
      (applyOps h t ops).WF = true ∧ (applyOps h t ops).Coherent h = true ∧
        (applyOps h t ops).Tidy h := by
  intro ops
  induction ops with
  | nil => intro t _ hwf hcoh htidy; exact ⟨hwf, hcoh, htidy⟩
  | cons op ops ih =>
    intro t hops hwf hcoh htidy
    have hop := hops op (List.mem_cons_self op ops)
    cases op with
    | del k => cases hop
    | popOp k => cases hop
    | clearOp => cases hop
    | ins k v =>
      rw [applyOps]
      have htail := fun o ho => hops o (List.mem_cons_of_mem _ ho)
      simp only [applyOp]
      unfold FunnelHashTable.insertR
      cases hins : t.insert h k v with
      | error e => exact ih htail hwf hcoh htidy
      | ok t' =>
        exact ih htail (insert_wf hwf hins) (insert_coherent hcoh hins)
          (insert_tidy hwf htidy hins)

theorem getD_set_self_levels {ls : List (List Entry)} {n : Nat} {x : List Entry}
    (h : n < ls.length) : (ls.set n x).getD n [] = x := by
  rw [List.getD_eq_getElem?_getD, List.getElem?_set_self h]
  rfl

theorem getD_set_ne_levels {ls : List (List Entry)} {n m : Nat} {x : List Entry}
    (h : m ≠ n) : (ls.set n x).getD m [] = ls.getD m [] := by
  rw [List.getD_eq_getElem?_getD, List.getD_eq_getElem?_getD,
    List.getElem?_set_ne (Ne.symm h)]

theorem insertLevels_some_shape {h : Nat → Nat} {beta k v : Nat} :
    ∀ {ls : List (List Entry)} {cs ss : List Nat} {ls' : List (List Entry)},
      levelsWF beta ls cs ss = true →
      insertLevels h beta k v ls cs ss = some ls' →
      ∃ n idx, n < ls.length ∧ idx < (ls.getD n []).length ∧
        ls' = ls.set n ((ls.getD n []).set idx ⟨k, v, true⟩) := by
  intro ls
  induction ls with
  | nil => intro cs ss ls' _ hins; cases hins
  | cons level ls ih =>
    intro cs ss ls' hwf hins
    cases cs with
    | nil => cases hwf
    | cons count cs =>
      cases ss with
      | nil => cases hwf
      | cons salt ss =>
        rw [levelsWF] at hwf
        simp only [Bool.and_eq_true, decide_eq_true_eq] at hwf
        obtain ⟨⟨hcount, hlen⟩, hwftail⟩ := hwf
        rw [insertLevels] at hins
        cases hscan : scanBucket (insP k) level (fhash h k salt % count * beta) beta with
        | some idx =>
          rw [hscan] at hins
          cases hins
          obtain ⟨j, hj, hrw, _, _⟩ := scanBucket_eq_some hscan
          have hblt : fhash h k salt % count < count := Nat.mod_lt _ (by omega)
          refine ⟨0, idx, by simp, ?_, ?_⟩
          · show idx < level.length
            rw [hrw]
            exact window_lt hlen hblt hj
          · rw [List.getD_cons_zero, List.set_cons_zero]
        | none =>
          rw [hscan] at hins
          cases htail : insertLevels h beta k v ls cs ss with
          | none => rw [htail] at hins; cases hins
          | some ls2 =>
            rw [htail] at hins
            simp only [Option.map_some'] at hins
            cases hins
            obtain ⟨n, idx, hn, hidx, hshape⟩ := ih hwftail htail
            refine ⟨n + 1, idx, by simpa using Nat.succ_lt_succ hn, ?_, ?_⟩
            · exact hidx
            · rw [List.set_cons_succ, List.getD_cons_succ, ← hshape]

theorem contains_mem_keys {t : FunnelHashTable} {h : Nat → Nat} {k : Nat}
    (hc : t.contains h k = true) : k ∈ t.keys := by
  by_contra hk
  rw [FunnelHashTable.contains, get?_eq_none_of_not_mem_keys hk] at hc
  simp at hc

theorem tidy_written_level_occupied {t t' : FunnelHashTable}
    {k : Nat} {n idx : Nat} {e' : Entry}
    (huniq : ∀ k0 s1 s2, matchP k0 (readSlot t' s1) = true →
        matchP k0 (readSlot t' s2) = true → s1 = s2)
    (hn : n < t.levels.length) (hidx : idx < (t.levels.getD n []).length)
    (hlv : t'.levels = t.levels.set n ((t.levels.getD n []).set idx e'))
    (hsp : t'.special_array = t.special_array)
    (hme : matchP k e' = true)
    (hcases : (∃ m im, m < t.levels.length ∧
        matchP k (getEnt (t.levels.getD m []) im) = true) ∨
      (∃ im, matchP k (getEnt t.special_array im) = true)) :
    (getEnt (t.levels.getD n []) idx).occupied = true := by
  have hm2 : matchP k (readSlot t' (.level n idx)) = true := by
    simp only [readSlot]
    rw [hlv, getD_set_self_levels hn, getEnt_set_self _ hidx]
    exact hme
  rcases hcases with ⟨m, im, hm, hmm⟩ | ⟨im, hmm⟩
  · by_cases heq : m = n ∧ im = idx
    · obtain ⟨h1, h2⟩ := heq
      subst h1
      subst h2
      exact (matchP_true_iff.mp hmm).1
    · exfalso
      have hpers : getEnt (t'.levels.getD m []) im = getEnt (t.levels.getD m []) im := by
        by_cases hmn : m = n
        · subst hmn
          have him : im ≠ idx := fun he => heq ⟨rfl, he⟩
          rw [hlv, getD_set_self_levels hn, getEnt_set_ne _ him]
        · rw [hlv, getD_set_ne_levels hmn]
      have hm1 : matchP k (readSlot t' (.level m im)) = true := by
        simp only [readSlot]
        rw [hpers]
        exact hmm
      have heq2 := huniq k (.level m im) (.level n idx) hm1 hm2
      rw [Slot.level.injEq] at heq2
      exact heq heq2
  · exfalso
    have hm1 : matchP k (readSlot t' (.special im)) = true := by
      simp only [readSlot]
      rw [hsp]
      exact hmm
    exact Slot.noConfusion (huniq k (.special im) (.level n idx) hm1 hm2)

theorem tidy_written_special_occupied {t t' : FunnelHashTable}
    {k : Nat} {p : Nat} {e' : Entry}
    (huniq : ∀ k0 s1 s2, matchP k0 (readSlot t' s1) = true →
        matchP k0 (readSlot t' s2) = true → s1 = s2)
    (hplt : p < t.special_array.length)
    (hlv : t'.levels = t.levels)
    (hsp : t'.special_array = t.special_array.set p e')
    (hme : matchP k e' = true)
    (hcases : (∃ m im, m < t.levels.length ∧
        matchP k (getEnt (t.levels.getD m []) im) = true) ∨
      (∃ im, matchP k (getEnt t.special_array im) = true)) :
    (getEnt t.special_array p).occupied = true := by
  have hm2 : matchP k (readSlot t' (.special p)) = true := by
    simp only [readSlot]
    rw [hsp, getEnt_set_self _ hplt]
    exact hme
  rcases hcases with ⟨m, im, hm, hmm⟩ | ⟨im, hmm⟩
  · exfalso
    have hm1 : matchP k (readSlot t' (.level m im)) = true := by
      simp only [readSlot]
      rw [hlv]
      exact hmm
    exact Slot.noConfusion (huniq k (.level m im) (.special p) hm1 hm2)
  · by_cases heq : im = p
    · subst heq
      exact (matchP_true_iff.mp hmm).1
    · exfalso
      have hm1 : matchP k (readSlot t' (.special im)) = true := by
        simp only [readSlot]
        rw [hsp, getEnt_set_ne _ heq]
        exact hmm
      have heq2 := huniq k (.special im) (.special p) hm1 hm2
      rw [Slot.special.injEq] at heq2
      exact heq heq2

theorem tidy_insert_occupiedCount {t t' : FunnelHashTable} {h : Nat → Nat} {k v : Nat}
    (hwf : t.WF = true) (hcoh : t.Coherent h = true) (htidy : t.Tidy h)
    (hc : t.contains h k = true) (hins : t.insert h k v = .ok t') :
    occupiedCount t' = occupiedCount t := by
  have hwf' := insert_wf hwf hins
  have hcoh' := insert_coherent hcoh hins
  have htidy' := insert_tidy hwf htidy hins
  have huniq := tidy_slot_unique hwf' hcoh' htidy'
  obtain ⟨hbeta, hpl, hsl, hwl⟩ := wf_parts hwf
  have hcases := mem_keys_cases (contains_mem_keys hc)
  unfold FunnelHashTable.insert at hins
  by_cases hfull : (t.max_inserts : Int) ≤ t.num_inserts
  · rw [if_pos hfull] at hins; cases hins
  · rw [if_neg hfull] at hins
    cases hlev : insertLevels h t.beta k v t.levels t.level_bucket_counts t.level_salts with
    | some ls =>
      rw [hlev] at hins
      dsimp only at hins
      obtain ⟨n, idx, hn, hidx, hshape⟩ := insertLevels_some_shape hwl hlev
      have ht' : t' = { t with levels := ls, num_inserts := t.num_inserts + 1 } :=
        (Except.ok.inj hins).symm
      have hlv : t'.levels = t.levels.set n ((t.levels.getD n []).set idx ⟨k, v, true⟩) := by
        rw [ht']
        exact hshape
      have hsp : t'.special_array = t.special_array := by rw [ht']
      have hocc := tidy_written_level_occupied huniq hn hidx hlv hsp
        (matchP_mk_self k v) hcases
      have hitems := items_set_level hn hidx hlv hsp
      have hcard := congrArg Multiset.card hitems
      rw [Multiset.card_add, Multiset.card_add, Multiset.coe_card, Multiset.coe_card,
        Multiset.coe_card, Multiset.coe_card] at hcard
      have h1 : (occPair (getEnt (t.levels.getD n []) idx)).toList.length = 1 := by
        unfold occPair
        rw [if_pos hocc]
        rfl
      have h2 : (occPair (⟨k, v, true⟩ : Entry)).toList.length = 1 := rfl
      unfold occupiedCount
      omega
    | none =>
      rw [hlev] at hins
      cases hpr : probeSpec (insP k) t.special_array (fhash h k t.special_salt) 0
          t.probe_limit with
      | none => rw [hpr] at hins; cases hins
      | some p =>
        rw [hpr] at hins
        dsimp only at hins
        have ht' : t' =
            { t with
              special_array := t.special_array.set p ⟨k, v, true⟩
              special_occupancy := t.special_occupancy + 1
              num_inserts := t.num_inserts + 1 } :=
          (Except.ok.inj hins).symm
        obtain ⟨jp, _, _, hrp, _, _⟩ := probeSpec_eq_some hpr
        have hplt : p < t.special_array.length := by
          rw [hrp]; exact Nat.mod_lt _ (by omega)
        have hlv : t'.levels = t.levels := by rw [ht']
        have hsp : t'.special_array = t.special_array.set p ⟨k, v, true⟩ := by rw [ht']
        have hocc := tidy_written_special_occupied huniq hplt hlv hsp
          (matchP_mk_self k v) hcases
        have hitems := items_set_special hplt hlv hsp
        have hcard := congrArg Multiset.card hitems
        rw [Multiset.card_add, Multiset.card_add, Multiset.coe_card, Multiset.coe_card,
          Multiset.coe_card, Multiset.coe_card] at hcard
        have h1 : (occPair (getEnt t.special_array p)).toList.length = 1 := by
          unfold occPair
          rw [if_pos hocc]
          rfl
        have h2 : (occPair (⟨k, v, true⟩ : Entry)).toList.length = 1 := rfl
        unfold occupiedCount
        omega

/-- C2 (amended): the per-key at-most-one-slot invariant holds for
insert-only histories.  After any sequence of insert operations on a fresh
well-formed table, every key matches at most one slot across all level
buckets and the overflow array, and a successful re-insert of a key the
table contains leaves the number of distinct occupied slots unchanged.
For histories with deletes the original invariant fails (see the
counterexample): a delete can unblock an earlier bucket slot and a
re-insert then stores the key a second time without removing the deeper
copy. -/
theorem C2_insert_only_unique_slot {t0 tn : FunnelHashTable} {h : Nat → Nat}
    {ops : List Op} (hwf : t0.WF = true) (hfr : t0.Fresh = true)
    (hops : ∀ op ∈ ops, isIns op = true) (htn : tn = applyOps h t0 ops) :
    (∀ k s1 s2, matchP k (readSlot tn s1) = true →
        matchP k (readSlot tn s2) = true → s1 = s2) ∧
    (∀ k v tn', tn.contains h k = true → tn.insert h k v = .ok tn' →
        occupiedCount tn' = occupiedCount tn) := by
  subst htn
  obtain ⟨hwfn, hcohn, htidyn⟩ := applyOps_ins_inv hops hwf (fresh_coherent hfr)
    (tidy_of_fresh hfr)
  exact ⟨tidy_slot_unique hwfn hcohn htidyn,
    fun k v tn' hc hins => tidy_insert_occupiedCount hwfn hcohn htidyn hc hins⟩

theorem C2_witness :
    t0c.WF = true ∧ t0c.Fresh = true ∧ (∀ op ∈ [Op.ins 0 10], isIns op = true) ∧
      ((∀ k s1 s2, matchP k (readSlot t1c s1) = true →
          matchP k (readSlot t1c s2) = true → s1 = s2) ∧
        (∀ k v t', t1c.contains hid k = true → t1c.insert hid k v = .ok t' →
            occupiedCount t' = occupiedCount t1c)) :=
  ⟨by decide, by decide, by decide,
    @C2_insert_only_unique_slot t0c t1c hid [Op.ins 0 10] (by decide) (by decide)
      (by decide) rfl⟩

/-- C2 as stated is false on the code.  `t0c` is exactly the table
`FunnelHashTable(5, delta=0.75)` builds when every drawn salt is 0 (first
conjunct).  After `insert(1, 10)`, `insert(0, 20)`, `delete(1)` the table
`t3c` holds key 0 only in its level-2 slot; the re-insert `insert(0, 30)`
then succeeds into the freed level-1 slot without touching the level-2
copy, so in `t4c` key 0 matches two distinct slots at once, `keys()` lists
key 0 twice, and the re-insert of the already-contained key 0 raised the
number of distinct occupied slots from 1 to 2. -/
theorem C2_counterexample :
    constructedTable 5 (3 / 4) (fun _ => 0) 0 = t0c ∧
    t3c = applyOps hid t0c [Op.ins 1 10, Op.ins 0 20, Op.del 1] ∧
    t3c.contains hid 0 = true ∧
    t3c.insert hid 0 30 = Except.ok t4c ∧
    matchP 0 (readSlot t4c (Slot.level 0 0)) = true ∧
    matchP 0 (readSlot t4c (Slot.level 1 0)) = true ∧
    Slot.level 0 0 ≠ Slot.level 1 0 ∧
    countKey t4c 0 = 2 ∧
    occupiedCount t3c = 1 ∧ occupiedCount t4c = 2 :=
  ⟨constructedTable_five, rfl, by decide, rfl, by decide, by decide, by decide,
    by decide, by decide, by decide⟩
